import Mathlib

/-!
# Verification of the artifact-os ingestion / dedup pipeline

Shallow embedding of the core pipeline of the `artifact-os` repository:
the evidence locator (`find_quote_offsets`), the URL source classifier and
canonicalizer (`detect_source_type` / `normalize_url`), the confidence →
review-status mapping, the cross-chunk fact dedup of the LLM service, the
pairwise-threshold dedup and lexical clustering of `projects.py`, the
idempotent enqueue of `ingest.py`, and the YouTube branch of the ingestion
worker.

Python strings are modelled as `List Char`; Python `str.find` (returning
`-1` on a miss) is modelled as `Option Nat`; Python `None` as `Option`.
`str.lower()` is modelled by ASCII `Char.toLower` (all inputs evaluated by
the theorems below are ASCII).
-/

namespace ArtifactOS

/-- Python whitespace characters recognised by `str.split()` (ASCII subset). -/
def pyIsSpace (c : Char) : Bool :=
  c = ' ' || c = '\t' || c = '\n' || c = '\r' || c = '\x0b' || c = '\x0c'

/-- Helper for `pySplitWs`: accumulate the current (reversed) token. -/
def wsTokensGo : List Char → List Char → List (List Char)
  | [], acc => if acc = [] then [] else [acc.reverse]
  | c :: rest, acc =>
    if pyIsSpace c then
      (if acc = [] then wsTokensGo rest [] else acc.reverse :: wsTokensGo rest [])
    else wsTokensGo rest (c :: acc)

/-- Python `s.split()`: split on runs of whitespace, discarding empty tokens. -/
def pySplitWs (s : List Char) : List (List Char) := wsTokensGo s []

/-- Python `" ".join(s.split())`: collapse every whitespace run to a single space
(the `normalize` inner function of `find_quote_offsets`). -/
def normWs (s : List Char) : List Char := List.intercalate [' '] (pySplitWs s)

/-- Python `hay.find(needle)`: index of the first occurrence of `needle` in
`hay`, `none` when absent (Python returns `-1`).  `hay.find("")` is `0`. -/
def pyFind : List Char → List Char → Option Nat
  | [], needle => if needle = [] then some 0 else none
  | c :: t, needle =>
    if needle.isPrefixOf (c :: t) then some 0 else (pyFind t needle).map (· + 1)

/-- Python slice `c[i:j]` for `0 ≤ i ≤ j`. -/
def pySlice (i j : Nat) (c : List Char) : List Char := (c.drop i).take (j - i)

/-- `find_quote_offsets` from `app/workers/ingest_task.py` (lines 54–83).
`content` is `Optional[str]`; the `if not content or not quote` guard treats
both `None` and the empty string as falsy.  On a hit the function returns
`(start, start + len(quote))` — the length of the *original* quote in both
the exact-match and the whitespace-normalized branches. -/
def findQuoteOffsets (content quote : Option (List Char)) : Option Nat × Option Nat :=
  match content, quote with
  | some c, some q =>
    if c = [] ∨ q = [] then (none, none)
    else
      let lc := c.map Char.toLower
      let lq := q.map Char.toLower
      match pyFind lc lq with
      | some s => (some s, some (s + q.length))
      | none =>
        match pyFind (normWs lc) (normWs lq) with
        | some s => (some s, some (s + q.length))
        | none => (none, none)
  | _, _ => (none, none)

/-- Review statuses of `app/models.py` used by the ingestion worker. -/
inductive ReviewStatus
  | PENDING
  | APPROVED
  | NEEDS_REVIEW
  | FLAGGED
  | REJECTED
deriving DecidableEq, Repr

/-- `confidence_score = 85 if confidence == "HIGH" else (60 if confidence == "MEDIUM" else 40)`
from `app/workers/ingest_task.py` line 458. -/
def confidenceScore (confidence : String) : Nat :=
  if confidence = "HIGH" then 85 else if confidence = "MEDIUM" then 60 else 40

/-- `review_status = PENDING if confidence_score >= 75 else NEEDS_REVIEW`
from `app/workers/ingest_task.py` line 459. -/
def initialReviewStatus (score : Nat) : ReviewStatus :=
  if score ≥ 75 then ReviewStatus.PENDING else ReviewStatus.NEEDS_REVIEW

/-- C5: the LLM confidence tier maps deterministically HIGH→85, MEDIUM→60,
LOW→40, and the initial review status is NEEDS_REVIEW iff the score is
strictly below 75. -/
theorem ingest_confidence_review_mapping :
    confidenceScore "HIGH" = 85 ∧ confidenceScore "MEDIUM" = 60 ∧
    confidenceScore "LOW" = 40 ∧
    ∀ confidence : String,
      (initialReviewStatus (confidenceScore confidence) = ReviewStatus.NEEDS_REVIEW
        ↔ confidenceScore confidence < 75) := by
  refine ⟨rfl, rfl, rfl, ?_⟩
  intro confidence
  by_cases h1 : confidence = "HIGH"
  · simp [confidenceScore, initialReviewStatus, h1]
  · by_cases h2 : confidence = "MEDIUM"
    · simp [confidenceScore, initialReviewStatus, h1, h2]
    · simp [confidenceScore, initialReviewStatus, h1, h2]

/-- C10: a `None` or empty content, or a `None` or empty quote, makes
`find_quote_offsets` return `(None, None)`; in particular the empty slice
`c[i:i]` is never located, so the offset round-trip cannot hold for `i = j`. -/
theorem find_quote_offsets_empty_inputs :
    (∀ content quote : Option (List Char),
      content = none ∨ content = some [] ∨ quote = none ∨ quote = some [] →
      findQuoteOffsets content quote = (none, none)) ∧
    (∀ (c : List Char) (i : Nat),
      findQuoteOffsets (some c) (some (pySlice i i c)) = (none, none) ∧
      findQuoteOffsets (some c) (some (pySlice i i c)) ≠ (some i, some i)) := by
  constructor
  · intro content quote h
    rcases h with h | h | h | h
    · subst h; cases quote <;> simp [findQuoteOffsets]
    · subst h; cases quote <;> simp [findQuoteOffsets]
    · subst h; cases content <;> simp [findQuoteOffsets]
    · subst h; cases content <;> simp [findQuoteOffsets]
  · intro c i
    have hsl : pySlice i i c = [] := by
      simp [pySlice, Nat.sub_self]
    rw [hsl]
    refine ⟨by simp [findQuoteOffsets], by simp [findQuoteOffsets]⟩

/-- Witness for `find_quote_offsets_empty_inputs`. -/
theorem find_quote_offsets_empty_inputs_witness :
    ((some ['a'] : Option (List Char)) = none ∨ (some ['a'] : Option (List Char)) = some [] ∨
      (some ([] : List Char)) = none ∨ (some ([] : List Char)) = some [] ) ∧
    findQuoteOffsets (some ['a']) (some []) = (none, none) := by
  refine ⟨by simp, ?_⟩
  exact find_quote_offsets_empty_inputs.1 (some ['a']) (some []) (by simp)

/-- C3 counterexample: the offset round-trip fails as universally stated.
For `c = "aa"` and the slice `(i, j) = (1, 2)` (so `q = "a"`), the locator
returns the *first* occurrence `(0, 1)`, not `(1, 2)`. -/
theorem find_quote_offsets_roundtrip_counterexample :
    pySlice 1 2 ['a', 'a'] = ['a'] ∧
    findQuoteOffsets (some ['a', 'a']) (some (pySlice 1 2 ['a', 'a'])) = (some 0, some 1) ∧
    findQuoteOffsets (some ['a', 'a']) (some (pySlice 1 2 ['a', 'a'])) ≠ (some 1, some 2) := by
  decide

/-- C3 (amended): for every content string `c` and nonempty slice `q = c[i:j]`
whose *first* case-insensitive occurrence in `c` is at index `i`,
`find_quote_offsets(c, q)` returns exactly `(i, j)`. -/
theorem find_quote_offsets_roundtrip_first_occurrence :
    ∀ (c : List Char) (i j : Nat), i < j → j ≤ c.length →
    pyFind (c.map Char.toLower) ((pySlice i j c).map Char.toLower) = some i →
    findQuoteOffsets (some c) (some (pySlice i j c)) = (some i, some j) := by
  intro c i j hij hj hfind
  have hlen : (pySlice i j c).length = j - i := by
    simp only [pySlice, List.length_take, List.length_drop]
    omega
  have hq : pySlice i j c ≠ [] := by
    intro h
    rw [h] at hlen
    simp at hlen
    omega
  have hc : c ≠ [] := by
    intro h
    subst h
    simp at hj
    omega
  simp only [findQuoteOffsets]
  rw [if_neg (by tauto), hfind, hlen]
  have hsum : i + (j - i) = j := by omega
  show (some i, some (i + (j - i))) = (some i, some j)
  rw [hsum]

/-- Witness for `find_quote_offsets_roundtrip_first_occurrence` at
`c = "xy"`, `i = 1`, `j = 2`. -/
theorem find_quote_offsets_roundtrip_first_occurrence_witness :
    (1 < 2 ∧ 2 ≤ (['x', 'y'] : List Char).length ∧
      pyFind ((['x', 'y'] : List Char).map Char.toLower)
        ((pySlice 1 2 ['x', 'y']).map Char.toLower) = some 1) ∧
    findQuoteOffsets (some ['x', 'y']) (some (pySlice 1 2 ['x', 'y'])) = (some 1, some 2) :=
  ⟨⟨by decide, by decide, by decide⟩,
    find_quote_offsets_roundtrip_first_occurrence ['x', 'y'] 1 2 (by decide) (by decide)
      (by decide)⟩

/-- C8 counterexample: in the whitespace-normalized fallback the end offset is
`start + len(original quote)`, not the end of the *normalized* quote.  With
content `"a\nb"` and quote `"a  b"` the normalized quote has length 3 but the
locator returns `(0, 4)`. -/
theorem find_quote_offsets_fallback_counterexample :
    findQuoteOffsets (some ['a', '\n', 'b']) (some ['a', ' ', ' ', 'b']) = (some 0, some 4) ∧
    (normWs ((['a', ' ', ' ', 'b'] : List Char).map Char.toLower)).length = 3 ∧
    findQuoteOffsets (some ['a', '\n', 'b']) (some ['a', ' ', ' ', 'b']) ≠ (some 0, some 3) := by
  decide

/-- C8 (amended): when the case-insensitive exact search fails, both strings
are whitespace-collapsed; a hit at normalized index `s` yields
`(s, s + len(original quote))` (offsets against the normalized content, end
computed from the *original* quote length), and a second miss yields
`(None, None)`. -/
theorem find_quote_offsets_fallback :
    ∀ c q : List Char, c ≠ [] → q ≠ [] →
    pyFind (c.map Char.toLower) (q.map Char.toLower) = none →
    ((∀ s : Nat,
        pyFind (normWs (c.map Char.toLower)) (normWs (q.map Char.toLower)) = some s →
        findQuoteOffsets (some c) (some q) = (some s, some (s + q.length))) ∧
      (pyFind (normWs (c.map Char.toLower)) (normWs (q.map Char.toLower)) = none →
        findQuoteOffsets (some c) (some q) = (none, none))) := by
  intro c q hc hq hmiss
  constructor
  · intro s hs
    simp only [findQuoteOffsets]
    rw [if_neg (by tauto), hmiss, hs]
  · intro hs
    simp only [findQuoteOffsets]
    rw [if_neg (by tauto), hmiss, hs]

/-- Witness for `find_quote_offsets_fallback` at content `"a\nb"`,
quote `"a b"`. -/
theorem find_quote_offsets_fallback_witness :
    ((['a', '\n', 'b'] : List Char) ≠ [] ∧ (['a', ' ', 'b'] : List Char) ≠ [] ∧
      pyFind ((['a', '\n', 'b'] : List Char).map Char.toLower)
        ((['a', ' ', 'b'] : List Char).map Char.toLower) = none ∧
      pyFind (normWs ((['a', '\n', 'b'] : List Char).map Char.toLower))
        (normWs ((['a', ' ', 'b'] : List Char).map Char.toLower)) = some 0) ∧
    findQuoteOffsets (some ['a', '\n', 'b']) (some ['a', ' ', 'b']) = (some 0, some 3) :=
  ⟨⟨by decide, by decide, by decide, by decide⟩,
    (find_quote_offsets_fallback ['a', '\n', 'b'] ['a', ' ', 'b'] (by decide) (by decide)
      (by decide)).1 0 (by decide)⟩

/-! ## Cross-chunk fact deduplication (`app/services/llm.py`, lines 344–351) -/

/-- A Python string. -/
abbrev PyStr := List Char

/-- Python `str.strip()` (ASCII whitespace). -/
def pyStrip (s : PyStr) : PyStr :=
  ((s.dropWhile pyIsSpace).reverse.dropWhile pyIsSpace).reverse

/-- Python `str.lower()` (ASCII). -/
def pyLower (s : PyStr) : PyStr := s.map Char.toLower

/-- The `ExtractedFact` pydantic model of `app/services/llm.py`. -/
structure LlmFact where
  fact_text : PyStr
  quote_span : Option PyStr
  confidence : PyStr
  section_context : Option PyStr
  tags : List PyStr
  is_key_claim : Bool
deriving DecidableEq, Repr

/-- The dict key of the cross-chunk dedup: `f.fact_text.lower().strip()`. -/
def factKey (f : LlmFact) : PyStr := pyStrip (pyLower f.fact_text)

/-- The `unique_facts` dict loop of `extract_facts_from_markdown`: keep a fact
only when its key has not been seen; Python dicts preserve insertion order, so
the result lists first occurrences in input order. -/
def dedupFactsGo (seen : List PyStr) : List LlmFact → List LlmFact
  | [] => []
  | f :: rest =>
    if factKey f ∈ seen then dedupFactsGo seen rest
    else f :: dedupFactsGo (factKey f :: seen) rest

/-- `list(unique_facts.values())` of `extract_facts_from_markdown`. -/
def dedupFactTexts (facts : List LlmFact) : List LlmFact := dedupFactsGo [] facts

/-- Specification-side definition (from the amended claim's words): keep the
first fact of each key, dropping every later fact with the same key. -/
def keepFirstByKey : List LlmFact → List LlmFact
  | [] => []
  | f :: rest =>
    f :: keepFirstByKey (rest.filter (fun g => decide (factKey g ≠ factKey f)))
termination_by l => l.length
decreasing_by
  simp only [List.length_cons]
  exact Nat.lt_succ_of_le (List.length_filter_le _ _)

theorem dedupFactsGo_eq_keepFirst (l : List LlmFact) :
    ∀ seen, dedupFactsGo seen l
      = keepFirstByKey (l.filter (fun f => decide (factKey f ∉ seen))) := by
  induction l with
  | nil => intro seen; simp [dedupFactsGo, keepFirstByKey]
  | cons f rest ih =>
    intro seen
    by_cases h : factKey f ∈ seen
    · simp only [dedupFactsGo, if_pos h, List.filter_cons]
      have hdec : (decide (factKey f ∉ seen)) = false := by simp [h]
      rw [hdec]
      simp only [Bool.false_eq_true, if_false, ih seen]
    · simp only [dedupFactsGo, if_neg h, List.filter_cons]
      have hdec : (decide (factKey f ∉ seen)) = true := by simp [h]
      rw [hdec]
      simp only [if_true, keepFirstByKey, ih (factKey f :: seen)]
      have hfilters :
          List.filter (fun g => decide (factKey g ∉ factKey f :: seen)) rest
            = List.filter (fun g => decide (factKey g ≠ factKey f))
                (List.filter (fun g => decide (factKey g ∉ seen)) rest) := by
        rw [List.filter_filter]
        apply List.filter_congr
        intro g _
        simp [List.mem_cons, not_or, Bool.and_comm]
      rw [hfilters]

theorem keepFirstByKey_subset :
    ∀ (n : Nat) (l : List LlmFact), l.length ≤ n → ∀ b ∈ keepFirstByKey l, b ∈ l := by
  intro n
  induction n with
  | zero =>
    intro l hl b hb
    have : l = [] := by
      cases l
      · rfl
      · simp at hl
    subst this
    simp [keepFirstByKey] at hb
  | succ n ih =>
    intro l hl b hb
    cases l with
    | nil => simp [keepFirstByKey] at hb
    | cons f rest =>
      simp only [keepFirstByKey, List.mem_cons] at hb
      rcases hb with hb | hb
      · simp [hb]
      · have hlen : (rest.filter (fun g => decide (factKey g ≠ factKey f))).length ≤ n := by
          have := List.length_filter_le (fun g => decide (factKey g ≠ factKey f)) rest
          simp only [List.length_cons] at hl
          omega
        have := ih _ hlen b hb
        right
        exact List.mem_of_mem_filter this

theorem keepFirstByKey_pairwise :
    ∀ (n : Nat) (l : List LlmFact), l.length ≤ n →
    (keepFirstByKey l).Pairwise (fun a b => factKey a ≠ factKey b) := by
  intro n
  induction n with
  | zero =>
    intro l hl
    have : l = [] := by
      cases l
      · rfl
      · simp at hl
    subst this
    simp [keepFirstByKey]
  | succ n ih =>
    intro l hl
    cases l with
    | nil => simp [keepFirstByKey]
    | cons f rest =>
      have hlen : (rest.filter (fun g => decide (factKey g ≠ factKey f))).length ≤ n := by
        have := List.length_filter_le (fun g => decide (factKey g ≠ factKey f)) rest
        simp only [List.length_cons] at hl
        omega
      simp only [keepFirstByKey, List.pairwise_cons]
      refine ⟨?_, ih _ hlen⟩
      intro b hb
      have hmem := keepFirstByKey_subset n _ hlen b hb
      have := List.of_mem_filter hmem
      simp only [decide_eq_true_eq] at this
      exact fun hEq => this hEq.symm

theorem keepFirstByKey_covers :
    ∀ (n : Nat) (l : List LlmFact), l.length ≤ n →
    ∀ f ∈ l, ∃ g ∈ keepFirstByKey l, factKey g = factKey f := by
  intro n
  induction n with
  | zero =>
    intro l hl f hf
    have : l = [] := by
      cases l
      · rfl
      · simp at hl
    subst this
    simp at hf
  | succ n ih =>
    intro l hl f hf
    cases l with
    | nil => simp at hf
    | cons f0 rest =>
      have hlen : (rest.filter (fun g => decide (factKey g ≠ factKey f0))).length ≤ n := by
        have := List.length_filter_le (fun g => decide (factKey g ≠ factKey f0)) rest
        simp only [List.length_cons] at hl
        omega
      by_cases hk : factKey f = factKey f0
      · exact ⟨f0, by simp [keepFirstByKey], hk.symm⟩
      · rcases List.mem_cons.mp hf with hf | hf
        · subst hf; exact absurd rfl hk
        · have hmem : f ∈ rest.filter (fun g => decide (factKey g ≠ factKey f0)) :=
            List.mem_filter.mpr ⟨hf, by simpa using hk⟩
          obtain ⟨g, hg, hgk⟩ := ih _ hlen f hmem
          refine ⟨g, ?_, hgk⟩
          simp only [keepFirstByKey, List.mem_cons]
          right
          exact hg

/-- C9 counterexample: the dedup key is `fact_text.lower().strip()` — interior
whitespace is *not* collapsed.  Two facts equal under case + whitespace
normalization (`"a  b"` vs `"a b"`) both survive. -/
theorem llm_dedup_counterexample :
    normWs (pyLower ("a  b".data)) = normWs (pyLower ("a b".data)) ∧
    dedupFactTexts
        [⟨"a  b".data, none, "HIGH".data, none, [], false⟩,
         ⟨"a b".data, none, "HIGH".data, none, [], false⟩]
      = [⟨"a  b".data, none, "HIGH".data, none, [], false⟩,
         ⟨"a b".data, none, "HIGH".data, none, [], false⟩] := by
  decide

/-- C9 (amended): among candidate facts whose `fact_text` values are identical
after lowercasing and stripping leading/trailing whitespace, exactly one — the
first encountered — appears in the returned list; no two returned facts share
that normalized key, and every input fact has a returned representative. -/
theorem llm_dedup_fact_texts (facts : List LlmFact) :
    dedupFactTexts facts = keepFirstByKey facts ∧
    (dedupFactTexts facts).Pairwise (fun a b => factKey a ≠ factKey b) ∧
    ∀ f ∈ facts, ∃ g ∈ dedupFactTexts facts, factKey g = factKey f := by
  have heq : dedupFactTexts facts = keepFirstByKey facts := by
    have := dedupFactsGo_eq_keepFirst facts []
    simpa [dedupFactTexts] using this
  refine ⟨heq, ?_, ?_⟩
  · rw [heq]
    exact keepFirstByKey_pairwise facts.length facts le_rfl
  · intro f hf
    rw [heq]
    exact keepFirstByKey_covers facts.length facts le_rfl f hf

/-- Witness for `llm_dedup_fact_texts`. -/
theorem llm_dedup_fact_texts_witness :
    ((⟨"B ".data, none, "LOW".data, none, [], false⟩ : LlmFact)
        ∈ [(⟨"b".data, none, "HIGH".data, none, [], false⟩ : LlmFact),
           ⟨"B ".data, none, "LOW".data, none, [], false⟩]) ∧
    ∃ g ∈ dedupFactTexts
        [(⟨"b".data, none, "HIGH".data, none, [], false⟩ : LlmFact),
         ⟨"B ".data, none, "LOW".data, none, [], false⟩],
      factKey g = factKey ⟨"B ".data, none, "LOW".data, none, [], false⟩ :=
  ⟨by decide,
    (llm_dedup_fact_texts
      [⟨"b".data, none, "HIGH".data, none, [], false⟩,
       ⟨"B ".data, none, "LOW".data, none, [], false⟩]).2.2
      ⟨"B ".data, none, "LOW".data, none, [], false⟩ (by decide)⟩

/-! ## Lexical grouping and pairwise dedup (`app/api/projects.py`) -/

/-- A `ResearchNode` row as read by the dedup/grouping code: only the fields
those functions touch.  `created_at` is `Optional` (the sort key substitutes
`datetime.min`, modelled as `0`). -/
structure RNode where
  id : Nat
  fact_text : PyStr
  is_pinned : Bool
  is_key_claim : Bool
  confidence_score : Int
  created_at : Option Nat
  is_suppressed : Bool
  canonical_fact_id : Option Nat
  duplicate_group_id : Option Nat
deriving DecidableEq, Repr

/-- The `_GROUP_STOPWORDS` frozenset of `projects.py`. -/
def groupStopwords : List PyStr :=
  ["and".data, "the".data, "a".data, "an".data, "to".data, "of".data, "in".data,
   "on".data, "for".data, "with".data, "is".data, "it".data, "that".data,
   "this".data, "as".data, "at".data, "by".data, "from".data]

/-- Python regex `\w` (ASCII model): letters, digits, underscore. -/
def isWordChar (c : Char) : Bool :=
  (('a' ≤ c && c ≤ 'z') || ('A' ≤ c && c ≤ 'Z') || ('0' ≤ c && c ≤ '9') || c = '_')

/-- Helper for `collapseWs`: the flag records whether the previous character
was part of a whitespace run already emitted as one space. -/
def collapseWsGo : Bool → PyStr → PyStr
  | _, [] => []
  | inRun, c :: rest =>
    if pyIsSpace c then
      if inRun then collapseWsGo true rest else ' ' :: collapseWsGo true rest
    else c :: collapseWsGo false rest

/-- Python `re.sub(r"\s+", " ", s)`: replace every maximal whitespace run by
one space (leading/trailing runs included, unlike `" ".join(s.split())`). -/
def collapseWs (s : PyStr) : PyStr := collapseWsGo false s

/-- `_normalize_for_grouping`: lowercase + strip, drop non-word non-space
characters, collapse whitespace runs. -/
def normalizeForGrouping (s : PyStr) : PyStr :=
  collapseWs ((pyStrip (pyLower s)).filter (fun c => isWordChar c || pyIsSpace c))

/-- `_tokenize`: whitespace-split token *set*, dropping stop words and tokens
of length ≤ 1 (the set is modelled as a first-occurrence-deduplicated list). -/
def tokenize (s : PyStr) : List PyStr :=
  ((pySplitWs s).filter
    (fun t => t ≠ [] && t ∉ groupStopwords && t.length > 1)).eraseDups

/-- `_jaccard_similarity`: token-set Jaccard ratio of the two normalized
texts (ℚ models the Python float; every comparison made by the claims is far
from any rounding boundary). -/
def jaccardSimilarity (a b : PyStr) : ℚ :=
  let ta := tokenize (normalizeForGrouping a)
  let tb := tokenize (normalizeForGrouping b)
  if ta = [] ∨ tb = [] then 0
  else
    let inter := (ta.filter (fun t => t ∈ tb)).length
    let union := (ta ++ tb.filter (fun t => t ∉ ta)).length
    if union = 0 then 0 else mkRat inter union

/-- `_canonical_sort_key`: pinned first, then key-claim, then higher
confidence, then older creation time. -/
def canonicalSortKey (n : RNode) : Nat × Nat × Int × Nat :=
  (if n.is_pinned then 0 else 1,
   if n.is_key_claim then 0 else 1,
   -n.confidence_score,
   n.created_at.getD 0)

/-- Lexicographic strict comparison of sort-key tuples (Python tuple `<`). -/
def keyLt (a b : Nat × Nat × Int × Nat) : Bool :=
  a.1 < b.1 ||
    (a.1 = b.1 && (a.2.1 < b.2.1 ||
      (a.2.1 = b.2.1 && (a.2.2.1 < b.2.2.1 ||
        (a.2.2.1 = b.2.2.1 && a.2.2.2 < b.2.2.2)))))

/-- Python `min(xs, key=_canonical_sort_key)` over `best :: rest`: keeps the
earliest element among those with minimal key. -/
def minCanonGo : RNode → List RNode → RNode
  | best, [] => best
  | best, x :: rest =>
    if keyLt (canonicalSortKey x) (canonicalSortKey best) then minCanonGo x rest
    else minCanonGo best rest

/-- `min(cluster, key=_canonical_sort_key)` (clusters are nonempty). -/
def clusterRep : List RNode → Option RNode
  | [] => none
  | a :: rest => some (minCanonGo a rest)

/-- One step of the greedy loop of `_cluster_facts_lexical`: try to append
`node` to the first cluster whose *first* member scores `≥ minSim`. -/
def placeNode (minSim : ℚ) (node : RNode) : List (List RNode) → Option (List (List RNode))
  | [] => none
  | cluster :: rest =>
    match cluster with
    | [] => none
    | rep :: _ =>
      if minSim ≤ jaccardSimilarity node.fact_text rep.fact_text then
        some ((cluster ++ [node]) :: rest)
      else (placeNode minSim node rest).map (cluster :: ·)

/-- `_cluster_facts_lexical` (clustering part): greedy single pass over
`nodes[:limit]` in the given order, first-fit, else open a new cluster.
The uuid5 group-id map it also returns is derived from
`min(cluster, key=_canonical_sort_key)` (`clusterRep`); the SHA-1 inside
`uuid.uuid5` is not modelled — no claim mentions the id values. -/
def clusterFactsLexical (nodes : List RNode) (minSim : ℚ) (lim : Nat) : List (List RNode) :=
  (nodes.take lim).foldl
    (fun clusters node =>
      match placeNode minSim node clusters with
      | some cs => cs
      | none => clusters ++ [[node]])
    []

/-- The two facts of the C6 scenario (equal except for text and
`is_key_claim`). -/
def arcticFactA : RNode :=
  ⟨1, "Arctic sea ice has declined by 13 percent per decade since 1979".data,
    false, false, 85, some 0, false, none, none⟩

/-- Second C6 fact: `"13%"` instead of `"13 percent"`, `is_key_claim = true`. -/
def arcticFactB : RNode :=
  ⟨2, "Arctic sea ice has declined by 13% per decade since 1979".data,
    false, true, 85, some 0, false, none, none⟩

/-- C6: with min-similarity 0.88 the two Arctic-sea-ice facts land in one
cluster, and the `is_key_claim=true` one is the cluster's canonical
representative. -/
theorem lexical_cluster_arctic_scenario :
    clusterFactsLexical [arcticFactA, arcticFactB] (mkRat 88 100) 500
        = [[arcticFactA, arcticFactB]] ∧
    clusterRep [arcticFactA, arcticFactB] = some arcticFactB := by
  constructor
  · decide
  · decide

/-! ## Pairwise-threshold dedup (`dedup_facts`, `app/api/projects.py` 434–487)

`_similarity` lower-cases, strips and whitespace-collapses both texts and
then takes `difflib.SequenceMatcher(...).ratio()`.  The suppression invariant
of C2 is independent of the similarity values, so the ratio is passed to the
loop as an oracle parameter `sim` (the normalizer `_normalize_text` is
`normalizeText` below); everything else is translated from the source. -/

/-- `_normalize_text` of `projects.py`: lowercase, strip, collapse whitespace. -/
def normalizeText (s : PyStr) : PyStr := collapseWs (pyStrip (pyLower s))

/-- Inner loop of `dedup_facts` for one outer node with text `aText`: scan the
later nodes, skipping ids already grouped (`seen_in_group`) or suppressed,
and collect those scoring `≥ threshold`; collected ids join `seen_in_group`.
Returns (candidates-after-`a`, updated seen set). -/
def collectCands (sim : PyStr → PyStr → ℚ) (thr : ℚ) (aText : PyStr) :
    List RNode → List Nat → List Nat → List RNode × List Nat
  | [], seen, _ => ([], seen)
  | b :: rest, seen, supp =>
    if b.id ∈ seen ∨ b.id ∈ supp then collectCands sim thr aText rest seen supp
    else if thr ≤ sim aText b.fact_text then
      let r := collectCands sim thr aText rest (b.id :: seen) supp
      (b :: r.1, r.2)
    else collectCands sim thr aText rest seen supp

/-- One duplicate group: its members (`candidates`), the canonical member and
the group id (`uuid.uuid4()` is random; a counter stands in for it — no claim
mentions the id values). -/
structure DedupGroup where
  cands : List RNode
  canon : RNode
  gid : Nat
deriving Repr

/-- Ids the group marks suppressed: every member except the canonical one. -/
def suppIdsOf (g : DedupGroup) : List Nat :=
  (g.cands.filter (fun c => decide (c.id ≠ g.canon.id))).map (fun c => c.id)

/-- The outer loop of `dedup_facts`: for each node not yet grouped, collect
later similar nodes; groups of size ≥ 2 suppress their non-canonical members
(`canonical = min(candidates, key=_canonical_sort_key)`). -/
def dedupLoop (sim : PyStr → PyStr → ℚ) (thr : ℚ) :
    List RNode → List Nat → List Nat → Nat → List DedupGroup
  | [], _, _, _ => []
  | a :: rest, seen, supp, gid =>
    if a.id ∈ seen then dedupLoop sim thr rest seen supp gid
    else
      let r := collectCands sim thr a.fact_text rest seen supp
      if r.1 = [] then dedupLoop sim thr rest seen supp gid
      else
        let g : DedupGroup := ⟨a :: r.1, minCanonGo a r.1, gid⟩
        g :: dedupLoop sim thr rest r.2 (suppIdsOf g ++ supp) (gid + 1)

/-- The mutation `dedup_facts` performs on a suppressed candidate:
`is_suppressed = True`, `canonical_fact_id = canonical.id`,
`duplicate_group_id = group_id`; other nodes are untouched. -/
def applyGroups (groups : List DedupGroup) (n : RNode) : RNode :=
  match groups.find? (fun g => decide (n.id ∈ suppIdsOf g)) with
  | some g =>
    { n with is_suppressed := true, canonical_fact_id := some g.canon.id,
             duplicate_group_id := some g.gid }
  | none => n

/-- `dedup_facts`: take the project's non-suppressed nodes (oldest first, as
given), cap at `limit`, return fewer than 2 unchanged, else run the pairwise
loop and apply the suppression mutations.  Returns (groups, updated nodes). -/
def dedupFactsRun (sim : PyStr → PyStr → ℚ) (thr : ℚ) (nodes : List RNode)
    (lim : Nat) : List DedupGroup × List RNode :=
  let ns := nodes.take lim
  if ns.length < 2 then ([], ns)
  else
    let groups := dedupLoop sim thr ns [] [] 0
    (groups, ns.map (applyGroups groups))

theorem keyLt_irrefl (a : Nat × Nat × Int × Nat) : keyLt a a = false := by
  obtain ⟨a1, a2, a3, a4⟩ := a
  simp only [keyLt, Bool.or_eq_false_iff, Bool.and_eq_false_iff,
    decide_eq_false_iff_not, Bool.or_eq_true, Bool.and_eq_true, decide_eq_true_eq]
  omega

theorem keyLt_trans {a b c : Nat × Nat × Int × Nat}
    (h1 : keyLt a b = true) (h2 : keyLt b c = true) : keyLt a c = true := by
  obtain ⟨a1, a2, a3, a4⟩ := a
  obtain ⟨b1, b2, b3, b4⟩ := b
  obtain ⟨c1, c2, c3, c4⟩ := c
  simp only [keyLt, Bool.or_eq_true, Bool.and_eq_true, decide_eq_true_eq] at *
  omega

theorem keyLt_false_lt_trans {a b c : Nat × Nat × Int × Nat}
    (h1 : keyLt a b = false) (h2 : keyLt a c = true) : keyLt b c = true := by
  obtain ⟨a1, a2, a3, a4⟩ := a
  obtain ⟨b1, b2, b3, b4⟩ := b
  obtain ⟨c1, c2, c3, c4⟩ := c
  simp only [keyLt, Bool.or_eq_true, Bool.and_eq_true, decide_eq_true_eq,
    Bool.or_eq_false_iff, Bool.and_eq_false_iff, decide_eq_false_iff_not] at *
  omega

theorem minCanonGo_mem :
    ∀ (rest : List RNode) (a : RNode), minCanonGo a rest = a ∨ minCanonGo a rest ∈ rest := by
  intro rest
  induction rest with
  | nil => intro a; left; rfl
  | cons x rest ih =>
    intro a
    simp only [minCanonGo]
    by_cases h : keyLt (canonicalSortKey x) (canonicalSortKey a) = true
    · rw [if_pos h]
      rcases ih x with h2 | h2
      · right; simp [h2]
      · right; simp [h2]
    · rw [if_neg h]
      rcases ih a with h2 | h2
      · left; exact h2
      · right; simp [h2]

theorem minCanonGo_min :
    ∀ (rest : List RNode) (a x : RNode), (x = a ∨ x ∈ rest) →
    keyLt (canonicalSortKey x) (canonicalSortKey (minCanonGo a rest)) = false := by
  intro rest
  induction rest with
  | nil =>
    intro a x hx
    rcases hx with hx | hx
    · subst hx; exact keyLt_irrefl _
    · simp at hx
  | cons y rest ih =>
    intro a x hx
    simp only [minCanonGo]
    by_cases h : keyLt (canonicalSortKey y) (canonicalSortKey a) = true
    · rw [if_pos h]
      rcases hx with hx | hx
      · rw [hx]
        by_contra hcon
        have hxa : keyLt (canonicalSortKey a) (canonicalSortKey (minCanonGo y rest)) = true := by
          cases hna : keyLt (canonicalSortKey a) (canonicalSortKey (minCanonGo y rest))
          · exact absurd hna hcon
          · rfl
        have htr := keyLt_trans h hxa
        rw [ih y y (Or.inl rfl)] at htr
        exact Bool.false_ne_true htr
      · rcases List.mem_cons.mp hx with hx | hx
        · rw [hx]; exact ih y y (Or.inl rfl)
        · exact ih y x (Or.inr hx)
    · rw [if_neg h]
      have hfalse : keyLt (canonicalSortKey y) (canonicalSortKey a) = false := by
        cases hna : keyLt (canonicalSortKey y) (canonicalSortKey a)
        · rfl
        · exact absurd hna h
      rcases hx with hx | hx
      · rw [hx]; exact ih a a (Or.inl rfl)
      · rcases List.mem_cons.mp hx with hx | hx
        · rw [hx]
          by_contra hcon
          have hyr : keyLt (canonicalSortKey y) (canonicalSortKey (minCanonGo a rest)) = true := by
            cases hna : keyLt (canonicalSortKey y) (canonicalSortKey (minCanonGo a rest))
            · exact absurd hna hcon
            · rfl
          have htr := keyLt_false_lt_trans hfalse hyr
          rw [ih a a (Or.inl rfl)] at htr
          exact Bool.false_ne_true htr
        · exact ih a x (Or.inr hx)

theorem collectCands_cons_skip (sim : PyStr → PyStr → ℚ) (thr : ℚ) (aText : PyStr)
    (b : RNode) (rest : List RNode) (seen supp : List Nat)
    (h : b.id ∈ seen ∨ b.id ∈ supp) :
    collectCands sim thr aText (b :: rest) seen supp
      = collectCands sim thr aText rest seen supp := by
  simp only [collectCands]
  rw [if_pos h]

theorem collectCands_cons_add (sim : PyStr → PyStr → ℚ) (thr : ℚ) (aText : PyStr)
    (b : RNode) (rest : List RNode) (seen supp : List Nat)
    (h : ¬(b.id ∈ seen ∨ b.id ∈ supp)) (h2 : thr ≤ sim aText b.fact_text) :
    collectCands sim thr aText (b :: rest) seen supp
      = (b :: (collectCands sim thr aText rest (b.id :: seen) supp).1,
         (collectCands sim thr aText rest (b.id :: seen) supp).2) := by
  simp only [collectCands]
  rw [if_neg h, if_pos h2]

theorem collectCands_cons_far (sim : PyStr → PyStr → ℚ) (thr : ℚ) (aText : PyStr)
    (b : RNode) (rest : List RNode) (seen supp : List Nat)
    (h : ¬(b.id ∈ seen ∨ b.id ∈ supp)) (h2 : ¬ thr ≤ sim aText b.fact_text) :
    collectCands sim thr aText (b :: rest) seen supp
      = collectCands sim thr aText rest seen supp := by
  simp only [collectCands]
  rw [if_neg h, if_neg h2]

theorem collectCands_sound (sim : PyStr → PyStr → ℚ) (thr : ℚ) (aText : PyStr) :
    ∀ (rest : List RNode) (seen supp : List Nat),
      (∀ b ∈ (collectCands sim thr aText rest seen supp).1,
        b ∈ rest ∧ b.id ∉ seen ∧ b.id ∉ supp) ∧
      (∀ x ∈ seen, x ∈ (collectCands sim thr aText rest seen supp).2) ∧
      (∀ b ∈ (collectCands sim thr aText rest seen supp).1,
        b.id ∈ (collectCands sim thr aText rest seen supp).2) := by
  intro rest
  induction rest with
  | nil =>
    intro seen supp
    refine ⟨?_, ?_, ?_⟩ <;> simp [collectCands]
  | cons b rest ih =>
    intro seen supp
    by_cases h1 : b.id ∈ seen ∨ b.id ∈ supp
    · rw [collectCands_cons_skip sim thr aText b rest seen supp h1]
      obtain ⟨i1, i2, i3⟩ := ih seen supp
      refine ⟨?_, i2, i3⟩
      intro c hc
      obtain ⟨m, s1, s2⟩ := i1 c hc
      exact ⟨List.mem_cons_of_mem _ m, s1, s2⟩
    · push_neg at h1
      by_cases h2 : thr ≤ sim aText b.fact_text
      · rw [collectCands_cons_add sim thr aText b rest seen supp (by tauto) h2]
        obtain ⟨i1, i2, i3⟩ := ih (b.id :: seen) supp
        refine ⟨?_, ?_, ?_⟩
        · intro c hc
          rcases List.mem_cons.mp hc with hc | hc
          · subst hc
            exact ⟨List.mem_cons_self _ _, h1.1, h1.2⟩
          · obtain ⟨m, s1, s2⟩ := i1 c hc
            refine ⟨List.mem_cons_of_mem _ m, ?_, s2⟩
            intro hin
            exact s1 (List.mem_cons_of_mem _ hin)
        · intro x hx
          exact i2 x (List.mem_cons_of_mem _ hx)
        · intro c hc
          rcases List.mem_cons.mp hc with hc | hc
          · subst hc
            exact i2 c.id (List.mem_cons_self _ _)
          · exact i3 c hc
      · rw [collectCands_cons_far sim thr aText b rest seen supp (by tauto) h2]
        obtain ⟨i1, i2, i3⟩ := ih seen supp
        refine ⟨?_, i2, i3⟩
        intro c hc
        obtain ⟨m, s1, s2⟩ := i1 c hc
        exact ⟨List.mem_cons_of_mem _ m, s1, s2⟩

theorem canon_notin_suppIdsOf (g : DedupGroup) : g.canon.id ∉ suppIdsOf g := by
  intro h
  obtain ⟨c, hc, hcid⟩ := List.mem_map.mp h
  have hf := List.of_mem_filter hc
  simp only [decide_eq_true_eq] at hf
  exact hf hcid

theorem suppIdsOf_subset (g : DedupGroup) :
    ∀ i ∈ suppIdsOf g, i ∈ g.cands.map RNode.id := by
  intro i hi
  obtain ⟨c, hc, hcid⟩ := List.mem_map.mp hi
  exact List.mem_map.mpr ⟨c, List.mem_of_mem_filter hc, hcid⟩

theorem dedupLoop_cons_seen (sim : PyStr → PyStr → ℚ) (thr : ℚ) (a : RNode)
    (rest : List RNode) (seen supp : List Nat) (gid : Nat) (h : a.id ∈ seen) :
    dedupLoop sim thr (a :: rest) seen supp gid = dedupLoop sim thr rest seen supp gid := by
  simp only [dedupLoop]
  rw [if_pos h]

theorem dedupLoop_cons_nogroup (sim : PyStr → PyStr → ℚ) (thr : ℚ) (a : RNode)
    (rest : List RNode) (seen supp : List Nat) (gid : Nat) (h : a.id ∉ seen)
    (h2 : (collectCands sim thr a.fact_text rest seen supp).1 = []) :
    dedupLoop sim thr (a :: rest) seen supp gid = dedupLoop sim thr rest seen supp gid := by
  simp only [dedupLoop]
  rw [if_neg h, if_pos h2]

theorem dedupLoop_cons_group (sim : PyStr → PyStr → ℚ) (thr : ℚ) (a : RNode)
    (rest : List RNode) (seen supp : List Nat) (gid : Nat) (h : a.id ∉ seen)
    (h2 : ¬ (collectCands sim thr a.fact_text rest seen supp).1 = []) :
    dedupLoop sim thr (a :: rest) seen supp gid
      = (⟨a :: (collectCands sim thr a.fact_text rest seen supp).1,
          minCanonGo a (collectCands sim thr a.fact_text rest seen supp).1, gid⟩ : DedupGroup)
        :: dedupLoop sim thr rest (collectCands sim thr a.fact_text rest seen supp).2
            (suppIdsOf ⟨a :: (collectCands sim thr a.fact_text rest seen supp).1,
              minCanonGo a (collectCands sim thr a.fact_text rest seen supp).1, gid⟩ ++ supp)
            (gid + 1) := by
  simp only [dedupLoop]
  rw [if_neg h, if_neg h2]

theorem dedupLoop_sound (sim : PyStr → PyStr → ℚ) (thr : ℚ) :
    ∀ (rest : List RNode) (seen supp : List Nat) (gid : Nat),
      (rest.map RNode.id).Nodup →
      (∀ x, x ∈ supp → x ∈ rest.map RNode.id → x ∈ seen) →
      (∀ g ∈ dedupLoop sim thr rest seen supp gid,
        (g.canon ∈ g.cands ∧
         (∀ x ∈ g.cands, keyLt (canonicalSortKey x) (canonicalSortKey g.canon) = false) ∧
         (∀ c ∈ g.cands, c ∈ rest) ∧
         (∀ i ∈ suppIdsOf g, i ∉ seen) ∧
         g.canon.id ∉ supp) ∧
        (∀ g2 ∈ dedupLoop sim thr rest seen supp gid, g.canon.id ∉ suppIdsOf g2)) := by
  intro rest
  induction rest with
  | nil =>
    intro seen supp gid _ _ g hg
    simp [dedupLoop] at hg
  | cons a rest ih =>
    intro seen supp gid hnd hinv
    have hnd1 : a.id ∉ rest.map RNode.id := (List.nodup_cons.mp (by simpa using hnd)).1
    have hnd2 : (rest.map RNode.id).Nodup := (List.nodup_cons.mp (by simpa using hnd)).2
    by_cases hseen : a.id ∈ seen
    · rw [dedupLoop_cons_seen sim thr a rest seen supp gid hseen]
      have hinv2 : ∀ x, x ∈ supp → x ∈ rest.map RNode.id → x ∈ seen := by
        intro x hx hxr
        exact hinv x hx (by simp [hxr])
      intro g hg
      obtain ⟨p1, p2⟩ := ih seen supp gid hnd2 hinv2 g hg
      obtain ⟨q1, q2, q3, q4, q5⟩ := p1
      exact ⟨⟨q1, q2, fun c hc => List.mem_cons_of_mem _ (q3 c hc), q4, q5⟩, p2⟩
    · by_cases hcs : (collectCands sim thr a.fact_text rest seen supp).1 = []
      · rw [dedupLoop_cons_nogroup sim thr a rest seen supp gid hseen hcs]
        have hinv2 : ∀ x, x ∈ supp → x ∈ rest.map RNode.id → x ∈ seen := by
          intro x hx hxr
          exact hinv x hx (by simp [hxr])
        intro g hg
        obtain ⟨p1, p2⟩ := ih seen supp gid hnd2 hinv2 g hg
        obtain ⟨q1, q2, q3, q4, q5⟩ := p1
        exact ⟨⟨q1, q2, fun c hc => List.mem_cons_of_mem _ (q3 c hc), q4, q5⟩, p2⟩
      · rw [dedupLoop_cons_group sim thr a rest seen supp gid hseen hcs]
        obtain ⟨cc1, cc2, cc3⟩ := collectCands_sound sim thr a.fact_text rest seen supp
        set r1 := (collectCands sim thr a.fact_text rest seen supp).1 with hr1
        set r2 := (collectCands sim thr a.fact_text rest seen supp).2 with hr2
        -- membership facts about the freshly formed group
        have hGsupp_sub : ∀ i ∈ suppIdsOf ⟨a :: r1, minCanonGo a r1, gid⟩,
            i = a.id ∨ i ∈ r1.map RNode.id := by
          intro i hi
          have := suppIdsOf_subset _ i hi
          simpa using this
        have hGsupp_seen : ∀ i ∈ suppIdsOf ⟨a :: r1, minCanonGo a r1, gid⟩, i ∉ seen := by
          intro i hi hin
          rcases hGsupp_sub i hi with hi2 | hi2
          · subst hi2; exact hseen hin
          · obtain ⟨b, hb, hbid⟩ := List.mem_map.mp hi2
            have := (cc1 b hb).2.1
            rw [hbid] at this
            exact this hin
        have hcanon_mem : minCanonGo a r1 ∈ a :: r1 := by
          rcases minCanonGo_mem r1 a with h | h
          · rw [h]; exact List.mem_cons_self _ _
          · exact List.mem_cons_of_mem _ h
        have hcanon_supp : (minCanonGo a r1).id ∉ supp := by
          rcases List.mem_cons.mp hcanon_mem with h | h
          · rw [h]
            intro hin
            exact hseen (hinv a.id hin (by simp))
          · exact (cc1 _ h).2.2
        have hinv2 : ∀ x, x ∈ suppIdsOf ⟨a :: r1, minCanonGo a r1, gid⟩ ++ supp →
            x ∈ rest.map RNode.id → x ∈ r2 := by
          intro x hx hxr
          rcases List.mem_append.mp hx with hx | hx
          · rcases hGsupp_sub x hx with hx2 | hx2
            · subst hx2; exact absurd hxr hnd1
            · obtain ⟨b, hb, hbid⟩ := List.mem_map.mp hx2
              rw [← hbid]
              exact cc3 b hb
          · exact cc2 x (hinv x hx (by simp [hxr]))
        have ihr := ih r2 (suppIdsOf ⟨a :: r1, minCanonGo a r1, gid⟩ ++ supp) (gid + 1)
          hnd2 hinv2
        intro g hg
        rcases List.mem_cons.mp hg with hg | hg
        · -- g is the freshly formed group
          subst hg
          constructor
          · refine ⟨hcanon_mem, ?_, ?_, hGsupp_seen, hcanon_supp⟩
            · intro x hx
              exact minCanonGo_min r1 a x (List.mem_cons.mp hx)
            · intro c hc
              rcases List.mem_cons.mp hc with hc | hc
              · rw [hc]; exact List.mem_cons_self _ _
              · exact List.mem_cons_of_mem _ (cc1 c hc).1
          · intro g2 hg2
            rcases List.mem_cons.mp hg2 with hg2 | hg2
            · rw [hg2]
              exact canon_notin_suppIdsOf _
            · -- g2 is a later group
              obtain ⟨⟨_, _, q3, q4, _⟩, _⟩ := ihr g2 hg2
              intro hin
              rcases List.mem_cons.mp hcanon_mem with h | h
              · -- canonical is `a`: later groups only contain nodes of `rest`
                have : (minCanonGo a r1).id ∈ g2.cands.map RNode.id :=
                  suppIdsOf_subset g2 _ hin
                obtain ⟨b, hb, hbid⟩ := List.mem_map.mp this
                apply hnd1
                rw [h] at hbid
                exact List.mem_map.mpr ⟨b, q3 b hb, hbid⟩
              · -- canonical was collected: its id is in seen_in_group (r2)
                exact q4 _ hin (cc3 _ h)
        · -- g is a later group
          obtain ⟨⟨q1, q2, q3, q4, q5⟩, p2⟩ := ihr g hg
          constructor
          · refine ⟨q1, q2, fun c hc => List.mem_cons_of_mem _ (q3 c hc), ?_, ?_⟩
            · intro i hi hin
              exact q4 i hi (cc2 i hin)
            · intro hin
              exact q5 (List.mem_append.mpr (Or.inr hin))
          · intro g2 hg2
            rcases List.mem_cons.mp hg2 with hg2 | hg2
            · rw [hg2]
              intro hin
              exact q5 (List.mem_append.mpr (Or.inl hin))
            · exact p2 g2 hg2

theorem dedupFactsRun_small (sim : PyStr → PyStr → ℚ) (thr : ℚ) (nodes : List RNode)
    (lim : Nat) (h : (nodes.take lim).length < 2) :
    dedupFactsRun sim thr nodes lim = ([], nodes.take lim) := by
  simp only [dedupFactsRun]
  rw [if_pos h]

theorem dedupFactsRun_big (sim : PyStr → PyStr → ℚ) (thr : ℚ) (nodes : List RNode)
    (lim : Nat) (h : ¬ (nodes.take lim).length < 2) :
    dedupFactsRun sim thr nodes lim
      = (dedupLoop sim thr (nodes.take lim) [] [] 0,
         (nodes.take lim).map (applyGroups (dedupLoop sim thr (nodes.take lim) [] [] 0))) := by
  simp only [dedupFactsRun]
  rw [if_neg h]

/-- C2: after a run of the pairwise-threshold dedup over a project's
non-suppressed facts (in the given oldest-first order, capped at `lim`),
every fact it marked suppressed carries a non-null `canonical_fact_id`
referring to a member of the same duplicate group that is itself not
suppressed; the canonical member is the group's minimum under the priority
tuple (pinned, key-claim, −confidence, creation time).  `sim` is the
`_similarity` ratio, an oracle the invariant does not depend on. -/
theorem dedup_facts_suppression_invariant
    (sim : PyStr → PyStr → ℚ) (thr : ℚ) (nodes : List RNode) (lim : Nat)
    (hnd : (nodes.map RNode.id).Nodup)
    (hns : ∀ n ∈ nodes, n.is_suppressed = false) :
    ∀ n ∈ (dedupFactsRun sim thr nodes lim).2, n.is_suppressed = true →
      ∃ g ∈ (dedupFactsRun sim thr nodes lim).1,
        n.canonical_fact_id = some g.canon.id ∧
        n.id ∈ g.cands.map RNode.id ∧
        g.canon ∈ g.cands ∧
        (∀ x ∈ g.cands, keyLt (canonicalSortKey x) (canonicalSortKey g.canon) = false) ∧
        ∃ c ∈ (dedupFactsRun sim thr nodes lim).2,
          c.id = g.canon.id ∧ c.is_suppressed = false := by
  have hns2 : ∀ n ∈ nodes.take lim, n.is_suppressed = false := by
    intro n hn
    exact hns n (List.take_subset lim nodes hn)
  have hnd2 : ((nodes.take lim).map RNode.id).Nodup := by
    apply hnd.sublist
    exact (List.take_sublist lim nodes).map RNode.id
  by_cases hsmall : (nodes.take lim).length < 2
  · rw [dedupFactsRun_small sim thr nodes lim hsmall]
    intro n hn hsup
    rw [hns2 n hn] at hsup
    exact absurd hsup (by simp)
  · rw [dedupFactsRun_big sim thr nodes lim hsmall]
    intro n hn hsup
    obtain ⟨m, hm, hnm⟩ := List.mem_map.mp hn
    cases hfind : (dedupLoop sim thr (nodes.take lim) [] [] 0).find?
        (fun g => decide (m.id ∈ suppIdsOf g)) with
    | none =>
      rw [← hnm] at hsup
      simp only [applyGroups, hfind] at hsup
      rw [hns2 m hm] at hsup
      exact absurd hsup (by simp)
    | some g =>
      have hgmem : g ∈ dedupLoop sim thr (nodes.take lim) [] [] 0 :=
        List.mem_of_find?_eq_some hfind
      have hpred : m.id ∈ suppIdsOf g := by
        have := List.find?_some hfind
        simpa using this
      obtain ⟨⟨q1, q2, q3, _, _⟩, p2⟩ :=
        dedupLoop_sound sim thr (nodes.take lim) [] [] 0 hnd2
          (by intro x hx; simp at hx) g hgmem
      have hn_can : n.canonical_fact_id = some g.canon.id := by
        rw [← hnm]
        simp [applyGroups, hfind]
      have hn_id : n.id = m.id := by
        rw [← hnm]
        simp [applyGroups, hfind]
      refine ⟨g, hgmem, hn_can, ?_, q1, q2, ?_⟩
      · rw [hn_id]
        exact suppIdsOf_subset g m.id hpred
      · refine ⟨applyGroups (dedupLoop sim thr (nodes.take lim) [] [] 0) g.canon, ?_, ?_⟩
        · exact List.mem_map.mpr ⟨g.canon, q3 g.canon q1, rfl⟩
        · have hnone : (dedupLoop sim thr (nodes.take lim) [] [] 0).find?
              (fun g2 => decide (g.canon.id ∈ suppIdsOf g2)) = none := by
            apply List.find?_eq_none.mpr
            intro g2 hg2
            simp only [decide_eq_true_eq]
            exact p2 g2 hg2
          constructor
          · simp [applyGroups, hnone]
          · simp only [applyGroups, hnone]
            exact hns2 g.canon (q3 g.canon q1)

/-- Nodes for the `dedup_facts_suppression_invariant` witness. -/
def dedupWitnessNodes : List RNode :=
  [⟨1, "same text".data, false, false, 85, some 0, false, none, none⟩,
   ⟨2, "same text".data, false, false, 85, some 1, false, none, none⟩]

/-- Witness for `dedup_facts_suppression_invariant` (constant similarity 1,
threshold 0, two nodes). -/
theorem dedup_facts_suppression_invariant_witness :
    ((dedupWitnessNodes.map RNode.id).Nodup ∧
      ∀ n ∈ dedupWitnessNodes, n.is_suppressed = false) ∧
    (∀ n ∈ (dedupFactsRun (fun _ _ => (1 : ℚ)) 0 dedupWitnessNodes 500).2,
      n.is_suppressed = true →
      ∃ g ∈ (dedupFactsRun (fun _ _ => (1 : ℚ)) 0 dedupWitnessNodes 500).1,
        n.canonical_fact_id = some g.canon.id ∧
        n.id ∈ g.cands.map RNode.id ∧
        g.canon ∈ g.cands ∧
        (∀ x ∈ g.cands, keyLt (canonicalSortKey x) (canonicalSortKey g.canon) = false) ∧
        ∃ c ∈ (dedupFactsRun (fun _ _ => (1 : ℚ)) 0 dedupWitnessNodes 500).2,
          c.id = g.canon.id ∧ c.is_suppressed = false) :=
  ⟨⟨by decide, by decide⟩,
    dedup_facts_suppression_invariant (fun _ _ => (1 : ℚ)) 0 dedupWitnessNodes 500
      (by decide) (by decide)⟩

/-! ## Source classifier and URL canonicalizer (`app/extractors/__init__.py`)

`urllib.parse.urlparse` is modelled for the split into scheme / netloc /
path / query / fragment as CPython performs it (leading C0-control/space
lstrip, removal of tab/CR/LF, scheme prefix, `//`-netloc up to `/?#`,
fragment at the first `#`, query at the first `?`).  `parse_qs` is modelled
via `parse_qsl` with its default flags (blank values dropped, fields without
`=` dropped, separator `&`).  `unquote_plus` decodes `+` and `%XX` byte runs
followed by UTF-8 decoding with U+FFFD replacement; CPython's maximal-subpart
replacement policy for malformed sequences is approximated per byte — every
theorem below that touches a query string restricts to `%`-free, `+`-free
inputs, where `unquote_plus` is provably the identity. -/

/-- WHATWG C0 control or space (`url.lstrip` set of `urlsplit`). -/
def isC0OrSpace (c : Char) : Bool := c.toNat ≤ 0x20

/-- The `_UNSAFE_URL_BYTES_TO_REMOVE` of `urllib.parse`: tab, CR, LF. -/
def isUnsafeUrlChar (c : Char) : Bool := c = '\t' || c = '\r' || c = '\n'

/-- `urlsplit` input cleaning: lstrip C0/space, remove tab/CR/LF everywhere. -/
def cleanUrl (u : PyStr) : PyStr :=
  (u.dropWhile isC0OrSpace).filter (fun c => !isUnsafeUrlChar c)

/-- `scheme_chars` of `urllib.parse`. -/
def isSchemeChar (c : Char) : Bool := c.isAlpha || c.isDigit || c = '+' || c = '-' || c = '.'

/-- Scheme recognition of `urlsplit`: a leading `alpha scheme_chars* :`
prefix is split off (lower-cased); otherwise the url is untouched. -/
def splitScheme (u : PyStr) : PyStr × PyStr :=
  match pyFind u [':'] with
  | some i =>
    if 0 < i then
      match u with
      | [] => ([], u)
      | c :: _ =>
        if c.isAlpha && (u.take i).all isSchemeChar then
          ((u.take i).map Char.toLower, u.drop (i + 1))
        else ([], u)
    else ([], u)
  | none => ([], u)

/-- Netloc extraction of `urlsplit`: after a leading `//`, up to `/`, `?`
or `#`. -/
def splitNetloc (rest : PyStr) : PyStr × PyStr :=
  match rest with
  | '/' :: '/' :: r =>
    (r.takeWhile (fun c => !(c = '/' || c = '?' || c = '#')),
     r.dropWhile (fun c => !(c = '/' || c = '?' || c = '#')))
  | _ => ([], rest)

/-- Python `s.split(t, 1)` pair: before the first `t`, and after it (empty
when `t` is absent — matching the `""` defaults of `SplitResult`). -/
def splitOnFirst (t : Char) (s : PyStr) : PyStr × PyStr :=
  (s.takeWhile (fun c => !(c = t)), (s.dropWhile (fun c => !(c = t))).drop 1)

/-- The components of `urllib.parse.urlparse` used by the repository. -/
structure PUrl where
  scheme : PyStr
  netloc : PyStr
  path : PyStr
  query : PyStr
  fragment : PyStr
deriving DecidableEq, Repr

/-- `urllib.parse.urlparse` (split portion; `params` never used). -/
def parseUrl (url : PyStr) : PUrl :=
  let u := cleanUrl url
  let sr := splitScheme u
  let nr := splitNetloc sr.2
  let fr := splitOnFirst '#' nr.2
  let qr := splitOnFirst '?' fr.1
  ⟨sr.1, nr.1, qr.1, qr.2, fr.2⟩

/-- Python `needle in hay` substring test. -/
def pyContains (hay needle : PyStr) : Bool := (pyFind hay needle).isSome

/-- `SourceType` of `app/models.py`. -/
inductive SourceType
  | WEB
  | REDDIT
  | YOUTUBE
  | MEDIA
deriving DecidableEq, Repr

/-- `detect_source_type` of `app/extractors/__init__.py` (lines 12–23). -/
def detectSourceType (url : PyStr) : SourceType :=
  let host := (parseUrl url).netloc.map Char.toLower
  if pyContains host ("reddit.com".data) || pyContains host ("old.reddit.com".data) then
    SourceType.REDDIT
  else if pyContains host ("youtube.com".data) || pyContains host ("youtu.be".data)
      || pyContains host ("www.youtube.com".data) then
    SourceType.YOUTUBE
  else SourceType.WEB

/-- Python `s.strip("/")`. -/
def stripSlashes (s : PyStr) : PyStr :=
  ((s.dropWhile (fun c => c = '/')).reverse.dropWhile (fun c => c = '/')).reverse

/-- Helper for `pySplitChar`. -/
def pySplitCharGo (t : Char) : PyStr → PyStr → List PyStr
  | [], acc => [acc.reverse]
  | c :: rest, acc =>
    if c = t then acc.reverse :: pySplitCharGo t rest []
    else pySplitCharGo t rest (c :: acc)

/-- Python `s.split(t)` for a single-character separator: keeps empty pieces,
`"".split(t) == [""]`. -/
def pySplitChar (t : Char) (s : PyStr) : List PyStr := pySplitCharGo t s []

/-- Python `xs.index(x)` over a string list (`none` when absent; the source
guards every `.index` call with an `in` test). -/
def pyIndex : List PyStr → PyStr → Option Nat
  | [], _ => none
  | y :: rest, x => if y = x then some 0 else (pyIndex rest x).map (· + 1)

/-- The `(sub, post_id, slug)` extraction of `_normalize_reddit_url` on the
already-split path segments. -/
def redditExtractParts (parts : List PyStr) : Option (PyStr × PyStr × PyStr) :=
  match pyIndex parts ("comments".data) with
  | none => none
  | some idx =>
    if idx + 1 < parts.length then
      let post_id := parts.getD (idx + 1) []
      let slug := if idx + 2 < parts.length then parts.getD (idx + 2) [] else []
      let sub :=
        match pyIndex parts ("r".data) with
        | some ridx => if ridx < idx then parts.getD (ridx + 1) [] else "reddit".data
        | none => "reddit".data
      some (sub, post_id, slug)
    else none

/-- The `(sub, post_id, slug)` triple `_normalize_reddit_url` extracts from
`parsed.path.strip("/").split("/")`, or `none` when the function falls
through to `return url`. -/
def redditExtract (url : PyStr) : Option (PyStr × PyStr × PyStr) :=
  redditExtractParts (pySplitChar '/' (stripSlashes (parseUrl url).path))

/-- The canonical reddit form:
`https://www.reddit.com/r/{sub}/comments/{id}/{slug}/` (or without slug). -/
def redditCanon (sub post_id slug : PyStr) : PyStr :=
  "https://www.reddit.com/r/".data ++ sub ++ "/comments/".data ++ post_id ++
    (if slug = [] then "/".data else "/".data ++ slug ++ "/".data)

/-- `_normalize_reddit_url` (lines 35–52): build the canonical form from the
extracted parts, or return the url unchanged. -/
def normalizeRedditUrl (url : PyStr) : PyStr :=
  match redditExtract url with
  | some (sub, post_id, slug) => redditCanon sub post_id slug
  | none => url

/-- Hex digit test for `%XX` escapes. -/
def isHexDigit (c : Char) : Bool :=
  c.isDigit || ('a' ≤ c && c ≤ 'f') || ('A' ≤ c && c ≤ 'F')

/-- Value of a hex digit. -/
def hexVal (c : Char) : Nat :=
  if c.isDigit then c.toNat - '0'.toNat
  else if 'a' ≤ c && c ≤ 'f' then c.toNat - 'a'.toNat + 10
  else c.toNat - 'A'.toNat + 10

/-- Collect a maximal run of valid `%XX` escapes as bytes, returning the
remainder of the string. -/
def collectBytes : PyStr → List Nat × PyStr
  | '%' :: a :: b :: rest =>
    if isHexDigit a && isHexDigit b then
      let r := collectBytes rest
      ((hexVal a * 16 + hexVal b) :: r.1, r.2)
    else ([], '%' :: a :: b :: rest)
  | s => ([], s)

/-- UTF-8 decoding of a byte run with U+FFFD replacement (fuel-driven). -/
def utf8DecodeGo : Nat → List Nat → PyStr
  | 0, _ => []
  | _, [] => []
  | fuel + 1, b :: rest =>
    if b < 0x80 then Char.ofNat b :: utf8DecodeGo fuel rest
    else if 0xC2 ≤ b && b ≤ 0xDF then
      match rest with
      | b2 :: rest2 =>
        if 0x80 ≤ b2 && b2 < 0xC0 then
          Char.ofNat ((b % 32) * 64 + b2 % 64) :: utf8DecodeGo fuel rest2
        else '�' :: utf8DecodeGo fuel rest
      | [] => ['�']
    else if 0xE0 ≤ b && b ≤ 0xEF then
      match rest with
      | b2 :: b3 :: rest3 =>
        if (0x80 ≤ b2 && b2 < 0xC0) && (0x80 ≤ b3 && b3 < 0xC0) then
          Char.ofNat ((b % 16) * 4096 + (b2 % 64) * 64 + b3 % 64) :: utf8DecodeGo fuel rest3
        else '�' :: utf8DecodeGo fuel rest
      | _ => ['�']
    else if 0xF0 ≤ b && b ≤ 0xF4 then
      match rest with
      | b2 :: b3 :: b4 :: rest4 =>
        if (0x80 ≤ b2 && b2 < 0xC0) && (0x80 ≤ b3 && b3 < 0xC0) && (0x80 ≤ b4 && b4 < 0xC0) then
          Char.ofNat ((b % 8) * 262144 + (b2 % 64) * 4096 + (b3 % 64) * 64 + b4 % 64)
            :: utf8DecodeGo fuel rest4
        else '�' :: utf8DecodeGo fuel rest
      | _ => ['�']
    else '�' :: utf8DecodeGo fuel rest

/-- UTF-8 decode a byte list with replacement. -/
def utf8Decode (bs : List Nat) : PyStr := utf8DecodeGo bs.length bs

/-- Helper for `pyUnquote` (fuel-driven; fuel = length of the input). -/
def unquoteGo : Nat → PyStr → PyStr
  | 0, s => s
  | _ + 1, [] => []
  | fuel + 1, c :: rest =>
    if c = '%' then
      match rest with
      | a :: b :: _ =>
        if isHexDigit a && isHexDigit b then
          let r := collectBytes (c :: rest)
          utf8Decode r.1 ++ unquoteGo fuel r.2
        else c :: unquoteGo fuel rest
      | _ => c :: unquoteGo fuel rest
    else c :: unquoteGo fuel rest

/-- Python `urllib.parse.unquote`. -/
def pyUnquote (s : PyStr) : PyStr := unquoteGo s.length s

/-- Python `urllib.parse.unquote_plus`: `+` → space, then unquote. -/
def unquotePlus (s : PyStr) : PyStr :=
  pyUnquote (s.map (fun c => if c = '+' then ' ' else c))

/-- One `name=value` field of `parse_qsl`: skip empty fields, fields without
`=` and blank values; unquote name and value. -/
def parseQslField (field : PyStr) : Option (PyStr × PyStr) :=
  if field = [] then none
  else
    match pyFind field ['='] with
    | none => none
    | some i =>
      let value := field.drop (i + 1)
      if value = [] then none
      else some (unquotePlus (field.take i), unquotePlus value)

/-- `urllib.parse.parse_qsl` with default flags: split on `&`, decode each
field. -/
def parseQsl (qs : PyStr) : List (PyStr × PyStr) :=
  (pySplitChar '&' qs).filterMap parseQslField

/-- `parse_qs(query).get("v", []) → v[0]`: the first `v` value, if any. -/
def qsFirstV (qs : PyStr) : Option PyStr :=
  match (parseQsl qs).filter (fun p => p.1 = "v".data) with
  | [] => none
  | p :: _ => some p.2

/-- The canonical youtube form `https://www.youtube.com/watch?v={id}`. -/
def ytCanon (vid : PyStr) : PyStr := "https://www.youtube.com/watch?v=".data ++ vid

/-- The video-id extraction of `_normalize_youtube_url` on the already-parsed
components. -/
def ytExtractParts (netloc path query : PyStr) : Option PyStr :=
  if pyContains netloc ("youtu.be".data) then
    let vid := (pySplitChar '/' (stripSlashes path)).getD 0 []
    if vid = [] then none else some vid
  else if pyContains netloc ("youtube.com".data) then
    qsFirstV query
  else none

/-- The video id `_normalize_youtube_url` extracts (`youtu.be` path segment
first, else the `v` query parameter of a `youtube.com` url), or `none` when
the function falls through to `return url`. -/
def ytExtract (url : PyStr) : Option PyStr :=
  ytExtractParts (parseUrl url).netloc (parseUrl url).path (parseUrl url).query

/-- `_normalize_youtube_url` (lines 55–70). -/
def normalizeYoutubeUrl (url : PyStr) : PyStr :=
  match ytExtract url with
  | some vid => ytCanon vid
  | none => url

/-- `normalize_url` (lines 26–32). -/
def normalizeUrl (url : PyStr) (st : SourceType) : PyStr :=
  match st with
  | SourceType.REDDIT => normalizeRedditUrl url
  | SourceType.YOUTUBE => normalizeYoutubeUrl url
  | _ => url

/-! ### List toolkit for the canonicalization proofs -/

theorem takeWhile_eq_self_of_all {p : Char → Bool} :
    ∀ {l : PyStr}, (∀ c ∈ l, p c = true) → l.takeWhile p = l := by
  intro l
  induction l with
  | nil => intro _; rfl
  | cons c t ih =>
    intro h
    simp only [List.takeWhile, h c (List.mem_cons_self _ _)]
    rw [ih (fun x hx => h x (List.mem_cons_of_mem _ hx))]

theorem dropWhile_eq_nil_of_all {p : Char → Bool} :
    ∀ {l : PyStr}, (∀ c ∈ l, p c = true) → l.dropWhile p = [] := by
  intro l
  induction l with
  | nil => intro _; rfl
  | cons c t ih =>
    intro h
    simp only [List.dropWhile, h c (List.mem_cons_self _ _)]
    exact ih (fun x hx => h x (List.mem_cons_of_mem _ hx))

theorem takeWhile_append_left (l1 l2 : PyStr) {p : Char → Bool}
    (h : ∀ c ∈ l1, p c = true) :
    (l1 ++ l2).takeWhile p = l1 ++ l2.takeWhile p := by
  induction l1 with
  | nil => simp
  | cons c t ih =>
    simp only [List.cons_append, List.takeWhile, h c (List.mem_cons_self _ _),
      List.append_eq]
    rw [ih (fun x hx => h x (List.mem_cons_of_mem _ hx))]

theorem dropWhile_append_left (l1 l2 : PyStr) {p : Char → Bool}
    (h : ∀ c ∈ l1, p c = true) :
    (l1 ++ l2).dropWhile p = l2.dropWhile p := by
  induction l1 with
  | nil => simp
  | cons c t ih =>
    simp only [List.cons_append, List.dropWhile, h c (List.mem_cons_self _ _),
      List.append_eq]
    exact ih (fun x hx => h x (List.mem_cons_of_mem _ hx))

theorem splitOnFirst_of_all {t : Char} {l : PyStr} (h : ∀ c ∈ l, c ≠ t) :
    splitOnFirst t l = (l, []) := by
  have hall : ∀ c ∈ l, (fun c => !(c = t : Bool)) c = true := by
    intro c hc
    simp [h c hc]
  simp only [splitOnFirst]
  rw [takeWhile_eq_self_of_all hall, dropWhile_eq_nil_of_all hall]
  rfl

theorem pyFindChar_append {l1 l2 : PyStr} {c : Char} (h : c ∉ l1) :
    pyFind (l1 ++ c :: l2) [c] = some l1.length := by
  induction l1 with
  | nil =>
    simp only [List.nil_append, pyFind, List.length_nil]
    rw [if_pos]
    simp [List.isPrefixOf]
  | cons x t ih =>
    have hx : x ≠ c := fun hxc => h (hxc ▸ List.mem_cons_self _ _)
    have ht : c ∉ t := fun hct => h (List.mem_cons_of_mem _ hct)
    simp only [List.cons_append, pyFind, List.append_eq]
    rw [if_neg]
    · rw [ih ht]
      rfl
    · simp [List.isPrefixOf]
      intro hcx
      exact absurd hcx.symm hx

/-- Pieces of `pySplitCharGo` never contain the separator and draw their
characters from the input or the accumulator. -/
theorem pySplitCharGo_pieces {t : Char} :
    ∀ (s acc : PyStr), t ∉ acc →
    ∀ piece ∈ pySplitCharGo t s acc, t ∉ piece ∧ ∀ c ∈ piece, c ∈ s ∨ c ∈ acc := by
  intro s
  induction s with
  | nil =>
    intro acc hacc piece hp
    simp only [pySplitCharGo, List.mem_singleton] at hp
    subst hp
    constructor
    · simp only [List.mem_reverse]
      exact hacc
    · intro c hc
      right
      exact List.mem_reverse.mp hc
  | cons x rest ih =>
    intro acc hacc piece hp
    simp only [pySplitCharGo] at hp
    by_cases hx : x = t
    · rw [if_pos hx] at hp
      rcases List.mem_cons.mp hp with hp | hp
      · subst hp
        refine ⟨by simpa using hacc, ?_⟩
        intro c hc
        right
        exact List.mem_reverse.mp hc
      · obtain ⟨h1, h2⟩ := ih [] (by simp) piece hp
        exact ⟨h1, fun c hc => by
          rcases h2 c hc with h | h
          · exact Or.inl (List.mem_cons_of_mem _ h)
          · simp at h⟩
    · rw [if_neg hx] at hp
      obtain ⟨h1, h2⟩ := ih (x :: acc) (by
        intro hmem
        rcases List.mem_cons.mp hmem with h | h
        · exact hx h.symm
        · exact hacc h) piece hp
      refine ⟨h1, ?_⟩
      intro c hc
      rcases h2 c hc with h | h
      · exact Or.inl (List.mem_cons_of_mem _ h)
      · rcases List.mem_cons.mp h with h | h
        · exact Or.inl (h ▸ List.mem_cons_self _ _)
        · exact Or.inr h

theorem pySplitChar_pieces {t : Char} {s : PyStr} :
    ∀ piece ∈ pySplitChar t s, t ∉ piece ∧ ∀ c ∈ piece, c ∈ s := by
  intro piece hp
  obtain ⟨h1, h2⟩ := pySplitCharGo_pieces s [] (by simp) piece hp
  refine ⟨h1, ?_⟩
  intro c hc
  rcases h2 c hc with h | h
  · exact h
  · simp at h

theorem pySplitCharGo_append_sep {t : Char} :
    ∀ (l1 : PyStr) (l2 acc : PyStr), t ∉ l1 →
    pySplitCharGo t (l1 ++ t :: l2) acc = (acc.reverse ++ l1) :: pySplitChar t l2 := by
  intro l1
  induction l1 with
  | nil =>
    intro l2 acc _
    simp [pySplitCharGo, pySplitChar]
  | cons x rest ih =>
    intro l2 acc h
    have hx : ¬(x = t) := fun hxt => h (hxt ▸ List.mem_cons_self _ _)
    simp only [List.cons_append, pySplitCharGo, if_neg hx, List.append_eq]
    rw [ih l2 (x :: acc) (fun hm => h (List.mem_cons_of_mem _ hm))]
    simp

theorem pySplitChar_append_sep {t : Char} {l1 l2 : PyStr} (h : t ∉ l1) :
    pySplitChar t (l1 ++ t :: l2) = l1 :: pySplitChar t l2 := by
  have := pySplitCharGo_append_sep l1 l2 [] h
  simpa [pySplitChar] using this

theorem pySplitCharGo_no_sep {t : Char} :
    ∀ (l acc : PyStr), t ∉ l → pySplitCharGo t l acc = [acc.reverse ++ l] := by
  intro l
  induction l with
  | nil => intro acc _; simp [pySplitCharGo]
  | cons x rest ih =>
    intro acc h
    have hx : ¬(x = t) := fun hxt => h (hxt ▸ List.mem_cons_self _ _)
    simp only [pySplitCharGo, if_neg hx]
    rw [ih (x :: acc) (fun hm => h (List.mem_cons_of_mem _ hm))]
    simp

theorem pySplitChar_no_sep {t : Char} {l : PyStr} (h : t ∉ l) :
    pySplitChar t l = [l] := by
  have := pySplitCharGo_no_sep l [] h
  simpa [pySplitChar] using this

theorem pyIndex_some_getD :
    ∀ (xs : List PyStr) (x : PyStr) (i : Nat), pyIndex xs x = some i →
    i < xs.length ∧ xs.getD i [] = x := by
  intro xs
  induction xs with
  | nil => intro x i h; simp [pyIndex] at h
  | cons y rest ih =>
    intro x i h
    simp only [pyIndex] at h
    by_cases hy : y = x
    · rw [if_pos hy] at h
      simp only [Option.some.injEq] at h
      subst h
      simp [hy]
    · rw [if_neg hy] at h
      cases hrec : pyIndex rest x with
      | none => rw [hrec] at h; simp at h
      | some j =>
        rw [hrec] at h
        simp only [Option.map_some', Option.some.injEq] at h
        subst h
        obtain ⟨h1, h2⟩ := ih x j hrec
        constructor
        · simpa using Nat.succ_lt_succ h1
        · simpa using h2

theorem unquoteGo_cons_ne (fuel : Nat) (c : Char) (rest : PyStr) (h : ¬(c = '%')) :
    unquoteGo (fuel + 1) (c :: rest) = c :: unquoteGo fuel rest := by
  simp only [unquoteGo, if_neg h]

theorem unquoteGo_id : ∀ (fuel : Nat) (s : PyStr), '%' ∉ s → unquoteGo fuel s = s := by
  intro fuel
  induction fuel with
  | zero => intro s _; rfl
  | succ n ih =>
    intro s h
    cases s with
    | nil => rfl
    | cons c rest =>
      have hc : ¬(c = '%') := fun he => h (he ▸ List.mem_cons_self _ _)
      rw [unquoteGo_cons_ne n c rest hc,
        ih rest (fun hm => h (List.mem_cons_of_mem _ hm))]

/-- On `%`-free, `+`-free strings `unquote_plus` is the identity. -/
theorem unquotePlus_id {s : PyStr} (hp : '+' ∉ s) (hpc : '%' ∉ s) :
    unquotePlus s = s := by
  have hmap : s.map (fun c => if c = '+' then ' ' else c) = s := by
    have : ∀ c ∈ s, (if c = '+' then ' ' else c) = c := by
      intro c hc
      have hne : ¬(c = '+') := by
        intro he
        subst he
        exact hp hc
      rw [if_neg hne]
    calc s.map (fun c => if c = '+' then ' ' else c) = s.map id := List.map_congr_left this
    _ = s := List.map_id s
  simp only [unquotePlus, hmap]
  exact unquoteGo_id s.length s hpc

/-- A path segment as produced by the reddit extraction: free of the
characters that the url parse consumes or removes. -/
abbrev goodSeg (s : PyStr) : Prop :=
  '/' ∉ s ∧ '?' ∉ s ∧ '#' ∉ s ∧ '\t' ∉ s ∧ '\r' ∉ s ∧ '\n' ∉ s

theorem goodSeg_clean {s : PyStr} (h : goodSeg s) :
    ∀ c ∈ s, isUnsafeUrlChar c = false := by
  intro c hc
  obtain ⟨_, _, _, h4, h5, h6⟩ := h
  simp only [isUnsafeUrlChar, Bool.or_eq_false_iff, decide_eq_false_iff_not]
  constructor
  · constructor
    · intro he; subst he; exact h4 hc
    · intro he; subst he; exact h5 hc
  · intro he; subst he; exact h6 hc

theorem cleanUrl_https_tail {pre tail : PyStr}
    (hpre : pre = "https://www.reddit.com".data ∨ pre = "https://www.youtube.com".data)
    (htail : ∀ c ∈ tail, isUnsafeUrlChar c = false) :
    cleanUrl (pre ++ tail) = pre ++ tail := by
  rcases hpre with hpre | hpre <;> subst hpre
  · show ((("https://www.reddit.com".data ++ tail).dropWhile isC0OrSpace).filter
        (fun c => !isUnsafeUrlChar c)) = _
    rw [show ("https://www.reddit.com".data ++ tail).dropWhile isC0OrSpace
        = "https://www.reddit.com".data ++ tail from rfl]
    rw [List.filter_append]
    rw [show ("https://www.reddit.com".data.filter (fun c => !isUnsafeUrlChar c))
        = "https://www.reddit.com".data from by decide]
    congr 1
    rw [List.filter_eq_self]
    intro c hc
    simp [htail c hc]
  · show ((("https://www.youtube.com".data ++ tail).dropWhile isC0OrSpace).filter
        (fun c => !isUnsafeUrlChar c)) = _
    rw [show ("https://www.youtube.com".data ++ tail).dropWhile isC0OrSpace
        = "https://www.youtube.com".data ++ tail from rfl]
    rw [List.filter_append]
    rw [show ("https://www.youtube.com".data.filter (fun c => !isUnsafeUrlChar c))
        = "https://www.youtube.com".data from by decide]
    congr 1
    rw [List.filter_eq_self]
    intro c hc
    simp [htail c hc]

/-- `urlparse` of `https://www.reddit.com/{tail}` for a clean, `#`/`?`-free
tail: scheme/netloc split off, everything else is the path. -/
theorem parseUrl_reddit_shape (tail : PyStr)
    (hclean : ∀ c ∈ tail, isUnsafeUrlChar c = false)
    (hhash : '#' ∉ tail) (hq : '?' ∉ tail) :
    parseUrl ("https://www.reddit.com".data ++ '/' :: tail)
      = ⟨"https".data, "www.reddit.com".data, '/' :: tail, [], []⟩ := by
  have hclean2 : ∀ c ∈ ('/' :: tail : PyStr), isUnsafeUrlChar c = false := by
    intro c hc
    rcases List.mem_cons.mp hc with hc | hc
    · subst hc; rfl
    · exact hclean c hc
  have h0 : cleanUrl ("https://www.reddit.com".data ++ '/' :: tail)
      = "https://www.reddit.com".data ++ '/' :: tail :=
    cleanUrl_https_tail (Or.inl rfl) hclean2
  have h1 : splitScheme ("https://www.reddit.com".data ++ '/' :: tail)
      = ("https".data, "//www.reddit.com".data ++ '/' :: tail) := rfl
  have h2 : splitNetloc ("//www.reddit.com".data ++ '/' :: tail)
      = ("www.reddit.com".data, '/' :: tail) := rfl
  have h3 : splitOnFirst '#' ('/' :: tail) = ('/' :: tail, []) := by
    apply splitOnFirst_of_all
    intro c hc
    rcases List.mem_cons.mp hc with hc | hc
    · subst hc; decide
    · exact fun he => hhash (he ▸ hc)
  have h4 : splitOnFirst '?' ('/' :: tail) = ('/' :: tail, []) := by
    apply splitOnFirst_of_all
    intro c hc
    rcases List.mem_cons.mp hc with hc | hc
    · subst hc; decide
    · exact fun he => hq (he ▸ hc)
  simp only [parseUrl, h0, h1, h2, h3, h4]

/-- `urlparse` of `https://www.youtube.com/watch?v={vid}` for a clean,
`#`-free vid. -/
theorem parseUrl_youtube_watch (vid : PyStr)
    (hclean : ∀ c ∈ vid, isUnsafeUrlChar c = false)
    (hhash : '#' ∉ vid) :
    parseUrl ("https://www.youtube.com/watch?v=".data ++ vid)
      = ⟨"https".data, "www.youtube.com".data, "/watch".data, "v=".data ++ vid, []⟩ := by
  have hshape : "https://www.youtube.com/watch?v=".data ++ vid
      = "https://www.youtube.com".data ++ ("/watch?v=".data ++ vid) := rfl
  have hclean2 : ∀ c ∈ ("/watch?v=".data ++ vid : PyStr), isUnsafeUrlChar c = false := by
    intro c hc
    rcases List.mem_append.mp hc with hc2 | hc2
    · have hall : ∀ x ∈ ("/watch?v=".data : PyStr), isUnsafeUrlChar x = false := by decide
      exact hall c hc2
    · exact hclean c hc2
  have h0 : cleanUrl ("https://www.youtube.com".data ++ ("/watch?v=".data ++ vid))
      = "https://www.youtube.com".data ++ ("/watch?v=".data ++ vid) :=
    cleanUrl_https_tail (Or.inr rfl) hclean2
  have h1 : splitScheme ("https://www.youtube.com".data ++ ("/watch?v=".data ++ vid))
      = ("https".data, "//www.youtube.com".data ++ ("/watch?v=".data ++ vid)) := rfl
  have h2 : splitNetloc ("//www.youtube.com".data ++ ("/watch?v=".data ++ vid))
      = ("www.youtube.com".data, "/watch?v=".data ++ vid) := rfl
  have h3 : splitOnFirst '#' ("/watch?v=".data ++ vid)
      = ("/watch?v=".data ++ vid, []) := by
    apply splitOnFirst_of_all
    intro c hc
    rcases List.mem_append.mp hc with hc2 | hc2
    · have hall : ∀ x ∈ ("/watch?v=".data : PyStr), x ≠ '#' := by decide
      exact hall c hc2
    · intro he
      subst he
      exact hhash hc2
  have h4 : splitOnFirst '?' ("/watch?v=".data ++ vid)
      = ("/watch".data, "v=".data ++ vid) := by
    have hsh : ("/watch?v=".data ++ vid : PyStr)
        = "/watch".data ++ '?' :: ("v=".data ++ vid) := rfl
    rw [hsh]
    simp only [splitOnFirst]
    rw [show ("/watch".data ++ '?' :: ("v=".data ++ vid)).takeWhile (fun c => !(c = '?' : Bool))
        = "/watch".data ++ (('?' :: ("v=".data ++ vid)).takeWhile (fun c => !(c = '?' : Bool)))
      from takeWhile_append_left _ _ (by decide)]
    rw [show ("/watch".data ++ '?' :: ("v=".data ++ vid)).dropWhile (fun c => !(c = '?' : Bool))
        = ('?' :: ("v=".data ++ vid)).dropWhile (fun c => !(c = '?' : Bool))
      from dropWhile_append_left _ _ (by decide)]
    rfl
  rw [hshape]
  simp only [parseUrl, h0, h1, h2, h3, h4]

theorem forall_mem_append {P : Char → Prop} {l1 l2 : PyStr}
    (h1 : ∀ c ∈ l1, P c) (h2 : ∀ c ∈ l2, P c) : ∀ c ∈ l1 ++ l2, P c := by
  intro c hc
  rcases List.mem_append.mp hc with hc | hc
  · exact h1 c hc
  · exact h2 c hc

theorem not_mem_of_forall_ne {x : Char} {l : PyStr} (h : ∀ c ∈ l, c ≠ x) : x ∉ l :=
  fun hm => h x hm rfl

theorem stripSlashes_gen (mid trail : PyStr) (x : Char) (hx : ¬(x = '/'))
    (htrail : ∀ c ∈ trail, c = '/') :
    stripSlashes ('/' :: ('r' :: (mid ++ x :: trail))) = 'r' :: (mid ++ [x]) := by
  have s1 : ('/' :: ('r' :: (mid ++ x :: trail)) : PyStr).dropWhile (fun c => (c = '/' : Bool))
      = 'r' :: (mid ++ x :: trail) := by
    rw [List.dropWhile_cons, if_pos (by decide), List.dropWhile_cons, if_neg (by decide)]
  have s2 : ('r' :: (mid ++ x :: trail) : PyStr).reverse
      = trail.reverse ++ x :: (mid.reverse ++ ['r']) := by
    simp
  have s3 : (trail.reverse ++ x :: (mid.reverse ++ ['r']) : PyStr).dropWhile
      (fun c => (c = '/' : Bool)) = x :: (mid.reverse ++ ['r']) := by
    rw [dropWhile_append_left _ _ (by
      intro c hc
      simp [htrail c (List.mem_reverse.mp hc)])]
    rw [List.dropWhile_cons, if_neg (by simpa using hx)]
  show ((('/' :: ('r' :: (mid ++ x :: trail)) : PyStr).dropWhile
      (fun c => (c = '/' : Bool))).reverse.dropWhile (fun c => (c = '/' : Bool))).reverse = _
  rw [s1, s2, s3]
  simp

theorem split_coreA (sub post slug : PyStr) (hsub : '/' ∉ sub) (hpost : '/' ∉ post)
    (hslug : '/' ∉ slug) :
    pySplitChar '/'
        ("r".data ++ '/' :: (sub ++ '/' :: ("comments".data ++ '/' :: (post ++ '/' :: slug))))
      = ["r".data, sub, "comments".data, post, slug] := by
  rw [pySplitChar_append_sep (by decide)]
  rw [pySplitChar_append_sep hsub]
  rw [pySplitChar_append_sep (by decide)]
  rw [pySplitChar_append_sep hpost]
  rw [pySplitChar_no_sep hslug]

theorem split_coreB (sub post : PyStr) (hsub : '/' ∉ sub) (hpost : '/' ∉ post) :
    pySplitChar '/' ("r".data ++ '/' :: (sub ++ '/' :: ("comments".data ++ '/' :: post)))
      = ["r".data, sub, "comments".data, post] := by
  rw [pySplitChar_append_sep (by decide)]
  rw [pySplitChar_append_sep hsub]
  rw [pySplitChar_append_sep (by decide)]
  rw [pySplitChar_no_sep hpost]

theorem split_coreC (sub : PyStr) (hsub : '/' ∉ sub) :
    pySplitChar '/' ("r".data ++ '/' :: (sub ++ '/' :: "comments".data))
      = ["r".data, sub, "comments".data] := by
  rw [pySplitChar_append_sep (by decide)]
  rw [pySplitChar_append_sep hsub]
  rw [pySplitChar_no_sep (by decide)]

theorem pyIndex_parts_comments (sub post slug : PyStr) (hnotc : ¬(sub = "comments".data)) :
    pyIndex ["r".data, sub, "comments".data, post, slug] ("comments".data) = some 2 := by
  simp only [pyIndex]
  rw [if_neg (by decide), if_neg hnotc]
  simp

theorem pyIndex_parts_commentsB (sub post : PyStr) (hnotc : ¬(sub = "comments".data)) :
    pyIndex ["r".data, sub, "comments".data, post] ("comments".data) = some 2 := by
  simp only [pyIndex]
  rw [if_neg (by decide), if_neg hnotc]
  simp

theorem pyIndex_parts_commentsC (sub : PyStr) (hnotc : ¬(sub = "comments".data)) :
    pyIndex ["r".data, sub, "comments".data] ("comments".data) = some 2 := by
  simp only [pyIndex]
  rw [if_neg (by decide), if_neg hnotc]
  simp

theorem goodSeg_all {s : PyStr} (h : goodSeg s) :
    ∀ c ∈ s, isUnsafeUrlChar c = false ∧ c ≠ '#' ∧ c ≠ '?' := by
  intro c hc
  refine ⟨goodSeg_clean h c hc, ?_, ?_⟩
  · intro he
    subst he
    exact h.2.2.1 hc
  · intro he
    subst he
    exact h.2.1 hc

/-- The property bundle used while parsing a constructed canonical url. -/
abbrev CleanChar (c : Char) : Prop := isUnsafeUrlChar c = false ∧ c ≠ '#' ∧ c ≠ '?'

theorem parseUrl_redditCanon (sub post slug : PyStr)
    (hsub : goodSeg sub) (hpost : goodSeg post) (hslug : goodSeg slug) :
    parseUrl (redditCanon sub post slug)
      = ⟨"https".data, "www.reddit.com".data,
          '/' :: ("r".data ++ '/' :: (sub ++ '/' :: ("comments".data ++ '/' ::
            (post ++ (if slug = [] then ['/'] else '/' :: (slug ++ ['/'])))))),
          [], []⟩ := by
  have hT : ∀ c ∈ (if slug = [] then ['/'] else '/' :: (slug ++ ['/']) : PyStr),
      CleanChar c := by
    by_cases hs : slug = []
    · rw [if_pos hs]
      decide
    · rw [if_neg hs]
      refine List.forall_mem_cons.mpr ⟨by decide, ?_⟩
      refine forall_mem_append (fun c hc => goodSeg_all hslug c hc) (by decide)
  have htail : ∀ c ∈ ("r".data ++ '/' :: (sub ++ '/' :: ("comments".data ++ '/' ::
      (post ++ (if slug = [] then ['/'] else '/' :: (slug ++ ['/']))))) : PyStr),
      CleanChar c := by
    refine forall_mem_append (by decide) (List.forall_mem_cons.mpr ⟨by decide, ?_⟩)
    refine forall_mem_append (fun c hc => goodSeg_all hsub c hc)
      (List.forall_mem_cons.mpr ⟨by decide, ?_⟩)
    refine forall_mem_append (by decide) (List.forall_mem_cons.mpr ⟨by decide, ?_⟩)
    exact forall_mem_append (fun c hc => goodSeg_all hpost c hc) hT
  have hform : redditCanon sub post slug
      = "https://www.reddit.com".data ++ '/' :: ("r".data ++ '/' :: (sub ++ '/' ::
          ("comments".data ++ '/' ::
            (post ++ (if slug = [] then ['/'] else '/' :: (slug ++ ['/'])))))) := by
    by_cases hs : slug = []
    · rw [if_pos hs]
      subst hs
      show "https://www.reddit.com/r/".data ++ sub ++ "/comments/".data ++ post ++
          (if ([] : PyStr) = [] then "/".data else "/".data ++ [] ++ "/".data) = _
      rw [if_pos rfl]
      simp
    · rw [if_neg hs]
      show "https://www.reddit.com/r/".data ++ sub ++ "/comments/".data ++ post ++
          (if slug = [] then "/".data else "/".data ++ slug ++ "/".data) = _
      rw [if_neg hs]
      simp
  rw [hform]
  exact parseUrl_reddit_shape _ (fun c hc => (htail c hc).1)
    (not_mem_of_forall_ne (fun c hc => (htail c hc).2.1))
    (not_mem_of_forall_ne (fun c hc => (htail c hc).2.2))

theorem redditExtractParts_success (sub post slug : PyStr)
    (hnotc : ¬(sub = "comments".data)) :
    redditExtractParts ["r".data, sub, "comments".data, post, slug]
      = some (sub, post, slug) := by
  have h1 := pyIndex_parts_comments sub post slug hnotc
  have h2 : pyIndex ["r".data, sub, "comments".data, post, slug] ("r".data)
      = some 0 := by
    simp only [pyIndex]
    simp
  simp only [redditExtractParts, h1, h2]
  simp [List.getD]

theorem redditExtractParts_successB (sub post : PyStr)
    (hnotc : ¬(sub = "comments".data)) :
    redditExtractParts ["r".data, sub, "comments".data, post]
      = some (sub, post, []) := by
  have h1 := pyIndex_parts_commentsB sub post hnotc
  have h2 : pyIndex ["r".data, sub, "comments".data, post] ("r".data) = some 0 := by
    simp only [pyIndex]
    simp
  simp only [redditExtractParts, h1, h2]
  simp [List.getD]

theorem redditExtractParts_fail (sub : PyStr) (hnotc : ¬(sub = "comments".data)) :
    redditExtractParts ["r".data, sub, "comments".data] = none := by
  have h1 := pyIndex_parts_commentsC sub hnotc
  simp only [redditExtractParts, h1]
  simp

theorem redditExtract_canonA (sub post slug₀ : PyStr) (x : Char)
    (hsub : goodSeg sub) (hpost : goodSeg post) (hslug : goodSeg (slug₀ ++ [x]))
    (hnotc : ¬(sub = "comments".data)) :
    redditExtract (redditCanon sub post (slug₀ ++ [x])) = some (sub, post, slug₀ ++ [x]) := by
  have hx : ¬(x = '/') := by
    intro he
    subst he
    exact hslug.1 (by simp)
  have hparse := parseUrl_redditCanon sub post (slug₀ ++ [x]) hsub hpost hslug
  rw [if_neg (by simp : ¬((slug₀ ++ [x] : PyStr) = []))] at hparse
  have hshape : ('/' :: ("r".data ++ '/' :: (sub ++ '/' :: ("comments".data ++ '/' ::
        (post ++ '/' :: ((slug₀ ++ [x]) ++ ['/']))))) : PyStr)
      = '/' :: ('r' :: (('/' :: (sub ++ '/' :: ("comments".data ++ '/' ::
          (post ++ '/' :: slug₀)))) ++ x :: ['/'])) := by
    show ('/' :: ('r' :: ('/' :: (sub ++ '/' :: ("comments".data ++ '/' ::
        (post ++ '/' :: ((slug₀ ++ [x]) ++ ['/'])))))) : PyStr) = _
    simp [List.append_assoc]
  have hsplitform : ('r' :: (('/' :: (sub ++ '/' :: ("comments".data ++ '/' ::
        (post ++ '/' :: slug₀)))) ++ [x]) : PyStr)
      = "r".data ++ '/' :: (sub ++ '/' :: ("comments".data ++ '/' ::
          (post ++ '/' :: (slug₀ ++ [x])))) := by
    show ('r' :: (('/' :: (sub ++ '/' :: ("comments".data ++ '/' ::
        (post ++ '/' :: slug₀)))) ++ [x]) : PyStr)
      = 'r' :: ('/' :: (sub ++ '/' :: ("comments".data ++ '/' ::
          (post ++ '/' :: (slug₀ ++ [x])))))
    simp [List.append_assoc]
  have hparts : pySplitChar '/'
      (stripSlashes (parseUrl (redditCanon sub post (slug₀ ++ [x]))).path)
      = ["r".data, sub, "comments".data, post, slug₀ ++ [x]] := by
    rw [hparse]
    show pySplitChar '/' (stripSlashes ('/' :: ("r".data ++ '/' :: (sub ++ '/' ::
        ("comments".data ++ '/' :: (post ++ '/' :: ((slug₀ ++ [x]) ++ ['/']))))))) = _
    rw [hshape, stripSlashes_gen _ _ x hx (by decide), hsplitform]
    exact split_coreA sub post (slug₀ ++ [x]) hsub.1 hpost.1 hslug.1
  show redditExtractParts (pySplitChar '/'
      (stripSlashes (parseUrl (redditCanon sub post (slug₀ ++ [x]))).path)) = _
  rw [hparts]
  exact redditExtractParts_success sub post (slug₀ ++ [x]) hnotc

theorem getD_mem_of_lt {l : List PyStr} {i : Nat} (h : i < l.length) :
    l.getD i [] ∈ l := by
  rw [List.getD_eq_getElem l [] h]
  exact List.getElem_mem h

theorem takeWhile_not_mem_self (t : Char) (l : PyStr) :
    t ∉ l.takeWhile (fun c => !(c = t : Bool)) := by
  intro hm
  have := List.mem_takeWhile_imp hm
  simp at this

theorem cleanUrl_unsafe (u : PyStr) :
    ∀ c ∈ cleanUrl u, isUnsafeUrlChar c = false := by
  intro c hc
  have := List.of_mem_filter hc
  simpa using this

theorem splitScheme_snd_subset (u : PyStr) : ∀ c ∈ (splitScheme u).2, c ∈ u := by
  rw [splitScheme.eq_def]
  split
  · split
    · split
      · intro c
        exact id
      · split
        · intro c hcm
          exact List.drop_subset _ _ hcm
        · intro c
          exact id
    · intro c
      exact id
  · intro c
    exact id

theorem splitNetloc_snd_subset (r : PyStr) : ∀ c ∈ (splitNetloc r).2, c ∈ r := by
  rw [splitNetloc.eq_def]
  split
  · rename_i rest
    intro c hc
    have hm : c ∈ rest := List.dropWhile_subset _ hc
    exact List.mem_cons_of_mem _ (List.mem_cons_of_mem _ hm)
  · intro c
    exact id

/-- Character-level guarantees for the path component of any parsed url. -/
theorem parseUrl_path_props (u : PyStr) :
    '#' ∉ (parseUrl u).path ∧ '?' ∉ (parseUrl u).path ∧
      ∀ c ∈ (parseUrl u).path, isUnsafeUrlChar c = false := by
  have hpath : (parseUrl u).path
      = ((splitNetloc (splitScheme (cleanUrl u)).2).2.takeWhile
          (fun c => !(c = '#' : Bool))).takeWhile (fun c => !(c = '?' : Bool)) := rfl
  refine ⟨?_, ?_, ?_⟩
  · rw [hpath]
    intro hm
    have hm2 := List.takeWhile_subset _ hm
    exact takeWhile_not_mem_self '#' _ hm2
  · rw [hpath]
    exact takeWhile_not_mem_self '?' _
  · rw [hpath]
    intro c hc
    have h1 := List.takeWhile_subset _ hc
    have h2 := List.takeWhile_subset _ h1
    have h3 := splitNetloc_snd_subset _ c h2
    have h4 := splitScheme_snd_subset _ c h3
    exact cleanUrl_unsafe u c h4

theorem stripSlashes_subset (s : PyStr) : ∀ c ∈ stripSlashes s, c ∈ s := by
  intro c hc
  simp only [stripSlashes] at hc
  rw [List.mem_reverse] at hc
  have h1 := List.dropWhile_subset _ hc
  rw [List.mem_reverse] at h1
  exact List.dropWhile_subset _ h1

/-- Segments extracted by `_normalize_reddit_url` satisfy `goodSeg`. -/
theorem goodSeg_of_mem_parts {u : PyStr} {piece : PyStr}
    (hp : piece ∈ pySplitChar '/' (stripSlashes (parseUrl u).path)) :
    goodSeg piece := by
  obtain ⟨hs, hsub⟩ := pySplitChar_pieces piece hp
  obtain ⟨hh, hq, hclean⟩ := parseUrl_path_props u
  have hsubset : ∀ c ∈ piece, c ∈ (parseUrl u).path := by
    intro c hc
    exact stripSlashes_subset _ c (hsub c hc)
  refine ⟨hs, ?_, ?_, ?_, ?_, ?_⟩
  · intro hm
    exact hq (hsubset _ hm)
  · intro hm
    exact hh (hsubset _ hm)
  · intro hm
    have := hclean _ (hsubset _ hm)
    simp [isUnsafeUrlChar] at this
  · intro hm
    have := hclean _ (hsubset _ hm)
    simp [isUnsafeUrlChar] at this
  · intro hm
    have := hclean _ (hsubset _ hm)
    simp [isUnsafeUrlChar] at this

theorem redditExtract_canonB (sub post₀ : PyStr) (x : Char)
    (hsub : goodSeg sub) (hpost : goodSeg (post₀ ++ [x]))
    (hnotc : ¬(sub = "comments".data)) :
    redditExtract (redditCanon sub (post₀ ++ [x]) []) = some (sub, post₀ ++ [x], []) := by
  have hx : ¬(x = '/') := by
    intro he
    subst he
    exact hpost.1 (by simp)
  have hparse := parseUrl_redditCanon sub (post₀ ++ [x]) [] hsub hpost
    (by refine ⟨?_, ?_, ?_, ?_, ?_, ?_⟩ <;> simp)
  rw [if_pos rfl] at hparse
  have hshape : ('/' :: ("r".data ++ '/' :: (sub ++ '/' :: ("comments".data ++ '/' ::
        ((post₀ ++ [x]) ++ ['/'])))) : PyStr)
      = '/' :: ('r' :: (('/' :: (sub ++ '/' :: ("comments".data ++ '/' :: post₀)))
          ++ x :: ['/'])) := by
    show ('/' :: ('r' :: ('/' :: (sub ++ '/' :: ("comments".data ++ '/' ::
        ((post₀ ++ [x]) ++ ['/'])))))  : PyStr) = _
    simp [List.append_assoc]
  have hsplitform : ('r' :: (('/' :: (sub ++ '/' :: ("comments".data ++ '/' :: post₀)))
        ++ [x]) : PyStr)
      = "r".data ++ '/' :: (sub ++ '/' :: ("comments".data ++ '/' :: (post₀ ++ [x]))) := by
    show ('r' :: (('/' :: (sub ++ '/' :: ("comments".data ++ '/' :: post₀))) ++ [x]) : PyStr)
      = 'r' :: ('/' :: (sub ++ '/' :: ("comments".data ++ '/' :: (post₀ ++ [x]))))
    simp [List.append_assoc]
  have hparts : pySplitChar '/'
      (stripSlashes (parseUrl (redditCanon sub (post₀ ++ [x]) [])).path)
      = ["r".data, sub, "comments".data, post₀ ++ [x]] := by
    rw [hparse]
    show pySplitChar '/' (stripSlashes ('/' :: ("r".data ++ '/' :: (sub ++ '/' ::
        ("comments".data ++ '/' :: ((post₀ ++ [x]) ++ ['/'])))))) = _
    rw [hshape, stripSlashes_gen _ _ x hx (by decide), hsplitform]
    exact split_coreB sub (post₀ ++ [x]) hsub.1 hpost.1
  show redditExtractParts (pySplitChar '/'
      (stripSlashes (parseUrl (redditCanon sub (post₀ ++ [x]) [])).path)) = _
  rw [hparts]
  exact redditExtractParts_successB sub (post₀ ++ [x]) hnotc

theorem redditExtract_canonC (sub : PyStr)
    (hsub : goodSeg sub) (hnotc : ¬(sub = "comments".data)) :
    redditExtract (redditCanon sub [] []) = none := by
  have hparse := parseUrl_redditCanon sub [] [] hsub
    (by refine ⟨?_, ?_, ?_, ?_, ?_, ?_⟩ <;> simp)
    (by refine ⟨?_, ?_, ?_, ?_, ?_, ?_⟩ <;> simp)
  rw [if_pos rfl] at hparse
  have hshape : ('/' :: ("r".data ++ '/' :: (sub ++ '/' :: ("comments".data ++ '/' ::
        (([] : PyStr) ++ ['/'])))) : PyStr)
      = '/' :: ('r' :: (('/' :: (sub ++ '/' :: "comment".data)) ++ 's' :: ['/', '/'])) := by
    show ('/' :: ('r' :: ('/' :: (sub ++ '/' :: ("comments".data ++ '/' ::
        (([] : PyStr) ++ ['/'])))))  : PyStr) = _
    simp [List.append_assoc]
  have hsplitform : ('r' :: (('/' :: (sub ++ '/' :: "comment".data)) ++ ['s']) : PyStr)
      = "r".data ++ '/' :: (sub ++ '/' :: "comments".data) := by
    show ('r' :: (('/' :: (sub ++ '/' :: "comment".data)) ++ ['s']) : PyStr)
      = 'r' :: ('/' :: (sub ++ '/' :: ("comment".data ++ ['s'])))
    simp [List.append_assoc]
  have hparts : pySplitChar '/' (stripSlashes (parseUrl (redditCanon sub [] [])).path)
      = ["r".data, sub, "comments".data] := by
    rw [hparse]
    show pySplitChar '/' (stripSlashes ('/' :: ("r".data ++ '/' :: (sub ++ '/' ::
        ("comments".data ++ '/' :: (([] : PyStr) ++ ['/'])))))) = _
    rw [hshape, stripSlashes_gen _ _ 's' (by decide) (by decide), hsplitform]
    exact split_coreC sub hsub.1
  show redditExtractParts (pySplitChar '/'
      (stripSlashes (parseUrl (redditCanon sub [] [])).path)) = _
  rw [hparts]
  exact redditExtractParts_fail sub hnotc

theorem detect_redditCanon (sub post slug : PyStr)
    (hsub : goodSeg sub) (hpost : goodSeg post) (hslug : goodSeg slug) :
    detectSourceType (redditCanon sub post slug) = SourceType.REDDIT := by
  have hparse := parseUrl_redditCanon sub post slug hsub hpost hslug
  simp only [detectSourceType, hparse]
  decide

/-- The reddit canonical form is a fixpoint of `_normalize_reddit_url` as
long as the extracted subreddit is not literally `"comments"`. -/
theorem normalizeReddit_canon_fixpoint (sub post slug : PyStr)
    (hsub : goodSeg sub) (hpost : goodSeg post) (hslug : goodSeg slug)
    (hnotc : ¬(sub = "comments".data)) :
    normalizeRedditUrl (redditCanon sub post slug) = redditCanon sub post slug := by
  by_cases hs : slug = []
  · subst hs
    by_cases hp : post = []
    · subst hp
      simp [normalizeRedditUrl, redditExtract_canonC sub hsub hnotc]
    · rcases (List.eq_nil_or_concat post).resolve_left hp with ⟨post₀, x, hpx⟩
      rw [List.concat_eq_append] at hpx
      subst hpx
      simp [normalizeRedditUrl, redditExtract_canonB sub post₀ x hsub hpost hnotc]
  · rcases (List.eq_nil_or_concat slug).resolve_left hs with ⟨slug₀, x, hsx⟩
    rw [List.concat_eq_append] at hsx
    subst hsx
    simp [normalizeRedditUrl, redditExtract_canonA sub post slug₀ x hsub hpost hslug hnotc]

theorem parseQslField_v (vid : PyStr) (hvnil : ¬(vid = []))
    (hplus : '+' ∉ vid) (hpct : '%' ∉ vid) :
    parseQslField ("v=".data ++ vid) = some ("v".data, vid) := by
  have hne : ¬(("v=".data ++ vid : PyStr) = []) := by simp
  have hfind : pyFind ("v=".data ++ vid) ['='] = some 1 := by
    show pyFind ('v' :: '=' :: vid) ['='] = some 1
    simp [pyFind, List.isPrefixOf]
  simp only [parseQslField, if_neg hne]
  rw [hfind]
  show (if vid = [] then none
    else some (unquotePlus (("v=".data ++ vid).take 1), unquotePlus vid))
    = some ("v".data, vid)
  rw [if_neg hvnil, unquotePlus_id hplus hpct]
  rw [show unquotePlus (("v=".data ++ vid).take 1) = "v".data from by
    rw [show (("v=".data ++ vid : PyStr).take 1) = "v".data from rfl]
    decide]

theorem qsFirstV_v (vid : PyStr) (hvnil : ¬(vid = [])) (hamp : '&' ∉ vid)
    (hplus : '+' ∉ vid) (hpct : '%' ∉ vid) :
    qsFirstV ("v=".data ++ vid) = some vid := by
  have hnosep : '&' ∉ ("v=".data ++ vid : PyStr) := by
    intro hm
    rcases List.mem_append.mp hm with h | h
    · have hall : ∀ x ∈ ("v=".data : PyStr), x ≠ '&' := by decide
      exact hall '&' h rfl
    · exact hamp h
  rw [qsFirstV.eq_def]
  simp only [parseQsl, pySplitChar_no_sep hnosep, List.filterMap_cons,
    parseQslField_v vid hvnil hplus hpct, List.filterMap_nil]
  simp

theorem ytExtractParts_watch (vid : PyStr) (hvnil : ¬(vid = [])) (hamp : '&' ∉ vid)
    (hplus : '+' ∉ vid) (hpct : '%' ∉ vid) :
    ytExtractParts ("www.youtube.com".data) ("/watch".data) ("v=".data ++ vid)
      = some vid := by
  simp only [ytExtractParts]
  rw [if_neg (by decide), if_pos (by decide)]
  exact qsFirstV_v vid hvnil hamp hplus hpct

/-- YouTube-id hypotheses of the amended idempotence claim. -/
def goodVid (vid : PyStr) : Prop :=
  vid ≠ [] ∧ '&' ∉ vid ∧ '#' ∉ vid ∧ '%' ∉ vid ∧ '+' ∉ vid ∧
    '\t' ∉ vid ∧ '\r' ∉ vid ∧ '\n' ∉ vid

theorem goodVid_clean {vid : PyStr} (h : goodVid vid) :
    ∀ c ∈ vid, isUnsafeUrlChar c = false := by
  intro c hc
  obtain ⟨_, _, _, _, _, h6, h7, h8⟩ := h
  simp only [isUnsafeUrlChar, Bool.or_eq_false_iff, decide_eq_false_iff_not]
  constructor
  · constructor
    · intro he; subst he; exact h6 hc
    · intro he; subst he; exact h7 hc
  · intro he; subst he; exact h8 hc

theorem ytExtract_canon (vid : PyStr) (h : goodVid vid) :
    ytExtract (ytCanon vid) = some vid := by
  have hparse : parseUrl (ytCanon vid)
      = ⟨"https".data, "www.youtube.com".data, "/watch".data, "v=".data ++ vid, []⟩ :=
    parseUrl_youtube_watch vid (goodVid_clean h) h.2.2.1
  show ytExtractParts (parseUrl (ytCanon vid)).netloc (parseUrl (ytCanon vid)).path
      (parseUrl (ytCanon vid)).query = _
  rw [hparse]
  exact ytExtractParts_watch vid h.1 h.2.1 h.2.2.2.2.1 h.2.2.2.1

theorem detect_ytCanon (vid : PyStr) (h : goodVid vid) :
    detectSourceType (ytCanon vid) = SourceType.YOUTUBE := by
  have hparse : parseUrl (ytCanon vid)
      = ⟨"https".data, "www.youtube.com".data, "/watch".data, "v=".data ++ vid, []⟩ :=
    parseUrl_youtube_watch vid (goodVid_clean h) h.2.2.1
  simp only [detectSourceType, hparse]
  decide

theorem normalizeYoutube_canon_fixpoint (vid : PyStr) (h : goodVid vid) :
    normalizeYoutubeUrl (ytCanon vid) = ytCanon vid := by
  simp [normalizeYoutubeUrl, ytExtract_canon vid h]

/-- Segments actually extracted by `_normalize_reddit_url` are `goodSeg`. -/
theorem redditExtract_goodSeg {u sub post slug : PyStr}
    (hex : redditExtract u = some (sub, post, slug)) :
    goodSeg sub ∧ goodSeg post ∧ goodSeg slug := by
  have hex2 : redditExtractParts (pySplitChar '/' (stripSlashes (parseUrl u).path))
      = some (sub, post, slug) := hex
  cases hidx : pyIndex (pySplitChar '/' (stripSlashes (parseUrl u).path))
      ("comments".data) with
  | none =>
    rw [redditExtractParts.eq_def, hidx] at hex2
    simp at hex2
  | some idx =>
    rw [redditExtractParts.eq_def, hidx] at hex2
    dsimp only at hex2
    by_cases hlt : idx + 1 < (pySplitChar '/' (stripSlashes (parseUrl u).path)).length
    · rw [if_pos hlt] at hex2
      simp only [Option.some.injEq, Prod.mk.injEq] at hex2
      obtain ⟨hsubE, hpostE, hslugE⟩ := hex2
      refine ⟨?_, ?_, ?_⟩
      · rw [← hsubE]
        cases hridx : pyIndex (pySplitChar '/' (stripSlashes (parseUrl u).path))
            ("r".data) with
        | none =>
          dsimp only
          decide
        | some ridx =>
          dsimp only
          by_cases hr2 : ridx < idx
          · rw [if_pos hr2]
            exact goodSeg_of_mem_parts (getD_mem_of_lt (by omega))
          · rw [if_neg hr2]
            decide
      · rw [← hpostE]
        exact goodSeg_of_mem_parts (getD_mem_of_lt hlt)
      · rw [← hslugE]
        by_cases h2 : idx + 2 < (pySplitChar '/' (stripSlashes (parseUrl u).path)).length
        · rw [if_pos h2]
          exact goodSeg_of_mem_parts (getD_mem_of_lt h2)
        · rw [if_neg h2]
          refine ⟨by simp, by simp, by simp, by simp, by simp, by simp⟩
    · rw [if_neg hlt] at hex2
      simp at hex2

/-- C4 counterexample: canonicalization is *not* idempotent.  For the url
`https://reddit.com/r/comments/comments/abc/xyz` (a thread in a subreddit
literally named `comments`), the first normalization produces
`https://www.reddit.com/r/comments/comments/comments/abc/` and normalizing
that again yields a different string. -/
theorem canonicalize_idempotence_counterexample :
    detectSourceType ("https://reddit.com/r/comments/comments/abc/xyz".data)
        = SourceType.REDDIT ∧
    normalizeUrl
        (normalizeUrl ("https://reddit.com/r/comments/comments/abc/xyz".data)
          (detectSourceType ("https://reddit.com/r/comments/comments/abc/xyz".data)))
        (detectSourceType
          (normalizeUrl ("https://reddit.com/r/comments/comments/abc/xyz".data)
            (detectSourceType ("https://reddit.com/r/comments/comments/abc/xyz".data))))
      ≠ normalizeUrl ("https://reddit.com/r/comments/comments/abc/xyz".data)
          (detectSourceType ("https://reddit.com/r/comments/comments/abc/xyz".data)) := by
  constructor
  · decide
  · decide

/-- C4 (amended): `normalize_url(normalize_url(u, t), t')` equals
`normalize_url(u, t)` (with `t = detect_source_type(u)` and `t'` the detected
type of the result) for WEB urls always; for REDDIT urls whenever the
extracted subreddit segment is not itself the literal string `"comments"`;
and for YOUTUBE urls whenever the extracted video id is nonempty (the code
guarantees this) and contains none of `&`, `#`, `%`, `+`, tab, CR, LF — the
characters that re-parse or decode differently on the second pass. -/
theorem canonicalize_idempotent (u : PyStr)
    (hreddit : ∀ sub post slug, detectSourceType u = SourceType.REDDIT →
      redditExtract u = some (sub, post, slug) → ¬(sub = "comments".data))
    (hyt : ∀ vid, detectSourceType u = SourceType.YOUTUBE →
      ytExtract u = some vid → goodVid vid) :
    normalizeUrl (normalizeUrl u (detectSourceType u))
        (detectSourceType (normalizeUrl u (detectSourceType u)))
      = normalizeUrl u (detectSourceType u) := by
  cases hdet : detectSourceType u with
  | WEB =>
    show normalizeUrl u (detectSourceType u) = u
    rw [hdet]
    rfl
  | MEDIA =>
    show normalizeUrl u (detectSourceType u) = u
    rw [hdet]
    rfl
  | REDDIT =>
    show normalizeUrl (normalizeRedditUrl u)
        (detectSourceType (normalizeRedditUrl u)) = normalizeRedditUrl u
    cases hex : redditExtract u with
    | none =>
      have hnu : normalizeRedditUrl u = u := by
        rw [normalizeRedditUrl.eq_def, hex]
      rw [hnu, hdet]
      show normalizeRedditUrl u = u
      exact hnu
    | some t =>
      obtain ⟨sub, post, slug⟩ := t
      have hnotc := hreddit sub post slug hdet hex
      obtain ⟨hgs, hgp, hgl⟩ := redditExtract_goodSeg hex
      have hnu : normalizeRedditUrl u = redditCanon sub post slug := by
        rw [normalizeRedditUrl.eq_def, hex]
      rw [hnu, detect_redditCanon sub post slug hgs hgp hgl]
      show normalizeRedditUrl (redditCanon sub post slug) = redditCanon sub post slug
      exact normalizeReddit_canon_fixpoint sub post slug hgs hgp hgl hnotc
  | YOUTUBE =>
    show normalizeUrl (normalizeYoutubeUrl u)
        (detectSourceType (normalizeYoutubeUrl u)) = normalizeYoutubeUrl u
    cases hex : ytExtract u with
    | none =>
      have hnu : normalizeYoutubeUrl u = u := by
        rw [normalizeYoutubeUrl.eq_def, hex]
      rw [hnu, hdet]
      show normalizeYoutubeUrl u = u
      exact hnu
    | some vid =>
      have hv := hyt vid hdet hex
      have hnu : normalizeYoutubeUrl u = ytCanon vid := by
        rw [normalizeYoutubeUrl.eq_def, hex]
      rw [hnu, detect_ytCanon vid hv]
      show normalizeYoutubeUrl (ytCanon vid) = ytCanon vid
      exact normalizeYoutube_canon_fixpoint vid hv

/-- Concrete reddit url for the `canonicalize_idempotent` witness. -/
def redditWitnessUrl : PyStr := "https://www.reddit.com/r/science/comments/abc/def/".data

/-- Witness for `canonicalize_idempotent`. -/
theorem canonicalize_idempotent_witness :
    (detectSourceType redditWitnessUrl = SourceType.REDDIT ∧
      redditExtract redditWitnessUrl = some ("science".data, "abc".data, "def".data)) ∧
    normalizeUrl (normalizeUrl redditWitnessUrl (detectSourceType redditWitnessUrl))
        (detectSourceType (normalizeUrl redditWitnessUrl
          (detectSourceType redditWitnessUrl)))
      = normalizeUrl redditWitnessUrl (detectSourceType redditWitnessUrl) :=
  ⟨⟨by decide, by decide⟩,
    canonicalize_idempotent redditWitnessUrl
      (by
        intro sub post slug _ hex
        rw [show redditExtract redditWitnessUrl
            = some ("science".data, "abc".data, "def".data) from by decide] at hex
        simp only [Option.some.injEq, Prod.mk.injEq] at hex
        obtain ⟨h1, _, _⟩ := hex
        rw [← h1]
        decide)
      (by
        intro vid hdet _
        rw [show detectSourceType redditWitnessUrl = SourceType.REDDIT from by decide]
          at hdet
        exact absurd hdet (by decide))⟩

/-! ## Idempotent enqueue (`ingest_url`, `app/api/ingest.py` lines 50–139)

The relational store is modelled as in-memory lists (`docs`, `jobs`) with a
fresh-id counter standing in for `uuid.uuid4()`.  `SELECT ... .first()` is
`List.find?`.  The model covers the sequential behaviour of the endpoint;
the `IntegrityError` race-recovery branch is concurrency-only and has no
sequential trace. -/

/-- `JobStatus` of `app/models.py`. -/
inductive JobStatus
  | PENDING
  | RUNNING
  | COMPLETED
  | FAILED
  | CANCELLED
deriving DecidableEq, Repr

/-- A `SourceDoc` row (the fields the enqueue/worker logic reads or writes). -/
structure SDoc where
  id : Nat
  project_id : Nat
  workspace_id : Nat
  url : PyStr
  canonical_url : Option PyStr
  title : Option PyStr
  content_text : PyStr
deriving DecidableEq, Repr

/-- A `Job` row (the fields the enqueue logic reads or writes;
`result_is_duplicate` models `result_summary["is_duplicate"] is True`). -/
structure JobM where
  id : Nat
  project_id : Nat
  workspace_id : Nat
  status : JobStatus
  idempotency_key : PyStr
  current_step : Option PyStr
  result_is_duplicate : Bool
deriving DecidableEq, Repr

/-- The store state seen by the enqueue endpoint. -/
structure IngestState where
  docs : List SDoc
  jobs : List JobM
  fresh : Nat
deriving Repr

/-- The endpoint's observable outcome: the returned job, the `is_duplicate`
flag of the response, and whether `celery_app.send_task` was called. -/
structure IngestResponse where
  job : JobM
  is_duplicate : Bool
  dispatched : Bool
deriving Repr

/-- `detect_source_type` + `normalize_url` as the endpoint composes them. -/
def canonicalOf (url : PyStr) : PyStr := normalizeUrl url (detectSourceType url)

/-- `f"{project_id}:{canonical}"`. -/
def mkIdemKey (project_id : Nat) (canonical : PyStr) : PyStr :=
  (toString project_id).data ++ ':' :: canonical

/-- The three-step duplicate-SourceDoc lookup of `ingest_url`: canonical_url
first, then stored url equal to the canonical, then (only when the canonical
differs from the raw url) the raw url. -/
def findExistingDoc (docs : List SDoc) (p : Nat) (url canonical : PyStr) : Option SDoc :=
  match docs.find? (fun d => decide (d.project_id = p ∧ d.canonical_url = some canonical)) with
  | some d => some d
  | none =>
    match docs.find? (fun d => decide (d.project_id = p ∧ d.url = canonical)) with
    | some d => some d
    | none =>
      if ¬(canonical = url) then
        docs.find? (fun d => decide (d.project_id = p ∧ d.url = url))
      else none

/-- `POST /ingest` (`ingest_url`): duplicate-doc check → duplicate-job check
→ create a PENDING job and dispatch. -/
def ingestUrl (p w : Nat) (url : PyStr) (s : IngestState) :
    IngestResponse × IngestState :=
  let canonical := canonicalOf url
  let idempotency_key := mkIdemKey p canonical
  match findExistingDoc s.docs p url canonical with
  | some _doc =>
    let dupJob : JobM :=
      ⟨s.fresh, p, w, JobStatus.COMPLETED,
        (toString p).data ++ ":dup:".data ++ (toString s.fresh).data,
        some ("DONE".data), true⟩
    (⟨dupJob, true, false⟩, ⟨s.docs, dupJob :: s.jobs, s.fresh + 1⟩)
  | none =>
    match s.jobs.find? (fun j => decide (j.project_id = p ∧ j.idempotency_key = idempotency_key)) with
    | some j => (⟨j, true, false⟩, s)
    | none =>
      let job : JobM := ⟨s.fresh, p, w, JobStatus.PENDING, idempotency_key, none, false⟩
      (⟨job, false, true⟩, ⟨s.docs, job :: s.jobs, s.fresh + 1⟩)

theorem ingestUrl_dup_doc_path (p w : Nat) (url : PyStr) (s : IngestState) (d : SDoc)
    (hdoc : findExistingDoc s.docs p url (canonicalOf url) = some d) :
    ingestUrl p w url s
      = (⟨⟨s.fresh, p, w, JobStatus.COMPLETED,
            (toString p).data ++ ":dup:".data ++ (toString s.fresh).data,
            some ("DONE".data), true⟩, true, false⟩,
         ⟨s.docs,
          (⟨s.fresh, p, w, JobStatus.COMPLETED,
            (toString p).data ++ ":dup:".data ++ (toString s.fresh).data,
            some ("DONE".data), true⟩ : JobM) :: s.jobs, s.fresh + 1⟩) := by
  simp only [ingestUrl, hdoc]

theorem ingestUrl_dup_job_path (p w : Nat) (url : PyStr) (s : IngestState) (j : JobM)
    (hdoc : findExistingDoc s.docs p url (canonicalOf url) = none)
    (hjob : s.jobs.find? (fun j => decide (j.project_id = p ∧
      j.idempotency_key = mkIdemKey p (canonicalOf url))) = some j) :
    ingestUrl p w url s = (⟨j, true, false⟩, s) := by
  simp only [ingestUrl, hdoc, hjob]

theorem ingestUrl_fresh_path (p w : Nat) (url : PyStr) (s : IngestState)
    (hdoc : findExistingDoc s.docs p url (canonicalOf url) = none)
    (hjob : s.jobs.find? (fun j => decide (j.project_id = p ∧
      j.idempotency_key = mkIdemKey p (canonicalOf url))) = none) :
    ingestUrl p w url s
      = (⟨⟨s.fresh, p, w, JobStatus.PENDING, mkIdemKey p (canonicalOf url), none, false⟩,
          false, true⟩,
         ⟨s.docs,
          (⟨s.fresh, p, w, JobStatus.PENDING, mkIdemKey p (canonicalOf url), none,
            false⟩ : JobM) :: s.jobs, s.fresh + 1⟩) := by
  simp only [ingestUrl, hdoc, hjob]

/-- Concrete enqueue scenario: a web URL whose SourceDoc is already stored. -/
def c1WUrl : PyStr := "https://example.com/a".data

def c1WDoc : SDoc :=
  ⟨0, 1, 1, c1WUrl, some (canonicalOf c1WUrl), some ("Example".data), []⟩

def c1WState : IngestState := ⟨[c1WDoc], [], 5⟩

/-- **C1** (idempotent enqueue): when a SourceDoc already exists for the
(project, canonical URL) under the three-step lookup of `ingest_url` —
canonical URL first, then stored URL equal to the canonical, then the original
un-normalized URL — the endpoint returns a COMPLETED job whose result records
is_duplicate = true and dispatches no worker task, leaving the document table
untouched; moreover, starting from any state, submitting the same URL twice for
the same project adds no SourceDoc at either call, adds no non-duplicate Job at
the second call, and the second call answers is_duplicate = true without
dispatching. -/
theorem ingest_idempotent_enqueue (p w : Nat) (url : PyStr) (s t : IngestState)
    (d : SDoc) (hd : findExistingDoc s.docs p url (canonicalOf url) = some d) :
    ((ingestUrl p w url s).1.is_duplicate = true ∧
     (ingestUrl p w url s).1.job.status = JobStatus.COMPLETED ∧
     (ingestUrl p w url s).1.job.result_is_duplicate = true ∧
     (ingestUrl p w url s).1.dispatched = false ∧
     (ingestUrl p w url s).2.docs = s.docs) ∧
    ((ingestUrl p w url (ingestUrl p w url t).2).1.is_duplicate = true ∧
     (ingestUrl p w url (ingestUrl p w url t).2).1.dispatched = false ∧
     (ingestUrl p w url t).2.docs = t.docs ∧
     (ingestUrl p w url (ingestUrl p w url t).2).2.docs = t.docs ∧
     (ingestUrl p w url (ingestUrl p w url t).2).2.jobs.filter
        (fun j => !j.result_is_duplicate)
       = (ingestUrl p w url t).2.jobs.filter (fun j => !j.result_is_duplicate)) := by
  constructor
  · rw [ingestUrl_dup_doc_path p w url s d hd]
    exact ⟨rfl, rfl, rfl, rfl, rfl⟩
  · cases hdoc : findExistingDoc t.docs p url (canonicalOf url) with
    | some d' =>
      simp only [ingestUrl, hdoc, List.filter_cons]
      simp
    | none =>
      cases hjob : t.jobs.find? (fun j => decide (j.project_id = p ∧
          j.idempotency_key = mkIdemKey p (canonicalOf url))) with
      | some j =>
        simp only [ingestUrl, hdoc, hjob]
        simp
      | none =>
        have hfind : List.find? (fun j => decide (j.project_id = p ∧
            j.idempotency_key = mkIdemKey p (canonicalOf url)))
            ((⟨t.fresh, p, w, JobStatus.PENDING, mkIdemKey p (canonicalOf url),
              none, false⟩ : JobM) :: t.jobs)
            = some ⟨t.fresh, p, w, JobStatus.PENDING,
                mkIdemKey p (canonicalOf url), none, false⟩ := by
          rw [List.find?_cons_of_pos]
          simp
        simp only [ingestUrl, hdoc, hjob, hfind]
        simp

/-! ## The worker's YOUTUBE path (`ingest_url_task`, `app/workers/ingest_task.py`
lines 243–533, specialised to `source_type == SourceType.YOUTUBE`)

External effects are inputs: `title` and `transcript` stand for the
extractor's result, `facts` for the LLM extraction, `fresh` for `uuid4`.
The model keeps the SourceDoc fields the deduplication logic reads
(as in `SDoc`) and the job fields the task writes. -/

/-- One transcript segment as returned by the caption fetch. -/
structure Segment where
  start_s : Nat
  end_s : Nat
  text : PyStr
deriving DecidableEq, Repr

/-- The `Job` row as the worker mutates it; the `result_*` fields model the
keys the task stores in `result_summary`. -/
structure WJob where
  id : Nat
  project_id : Nat
  workspace_id : Nat
  status : JobStatus
  current_step : PyStr
  steps_completed : Nat
  result_is_duplicate : Bool
  result_source_title : Option PyStr
  result_error_code : Option PyStr
  result_error_message : Option PyStr
  result_facts_count : Option Nat
  result_auto_flagged : Option Nat
deriving DecidableEq, Repr

/-- Python `a or b` on strings (empty string is falsy). -/
def pyOrS (a b : PyStr) : PyStr := if a = [] then b else a

/-- Python `a or b` where `a` is an optional string. -/
def pyOrStr (a : Option PyStr) (b : PyStr) : PyStr :=
  match a with
  | some s => pyOrS s b
  | none => b

/-- `_set_job_failed` (lines 235–240): FAILED status, FAILED step, and a fresh
result summary carrying the error code and message. -/
def setJobFailed (j : WJob) (code msg : PyStr) (title : Option PyStr) : WJob :=
  ⟨j.id, j.project_id, j.workspace_id, JobStatus.FAILED, "FAILED".data,
   j.steps_completed, false, title, some code, some msg, none, none⟩

/-- `canonical_url = params.get("canonical_url") or normalize_url(url, source_type)`. -/
def workerCanonical (canonicalParam : Option PyStr) (url : PyStr) (st : SourceType) : PyStr :=
  match canonicalParam with
  | some c => pyOrS c (normalizeUrl url st)
  | none => normalizeUrl url st

/-- The worker's duplicate-SourceDoc lookup (lines 256–265): stored url first,
then — only when the canonical is truthy — the canonical url. -/
def workerFindDoc (docs : List SDoc) (p : Nat) (url canonical : PyStr) : Option SDoc :=
  match docs.find? (fun d => decide (d.project_id = p ∧ d.url = url)) with
  | some d => some d
  | none =>
    if canonical ≠ [] then
      docs.find? (fun d => decide (d.project_id = p ∧ d.canonical_url = some canonical))
    else none

/-- `f"## [{seg.get('start_s', 0)}-{seg.get('end_s', 0)}]\n{seg.get('text', '')}"`. -/
def segLine (seg : Segment) : PyStr :=
  "## [".data ++ (toString seg.start_s).data ++ "-".data ++ (toString seg.end_s).data
    ++ "]\n".data ++ seg.text

/-- Python `sep.join(parts)`. -/
def joinSep (sep : PyStr) : List PyStr → PyStr
  | [] => []
  | [x] => x
  | x :: y :: rest => x ++ sep ++ joinSep sep (y :: rest)

/-- `ingest_url_task` specialised to a YOUTUBE job: dup pre-check, E2E retry
stub, caption check, text assembly, EMPTY_CONTENT check, SourceDoc upsert and
fact persistence, returning the final job and document table. -/
def ingestYoutubeTask (job : WJob) (url : PyStr) (canonicalParam : Option PyStr)
    (e2e_retry_ok : Bool) (title : PyStr) (transcript : List Segment)
    (facts : List LlmFact) (docs : List SDoc) (fresh : Nat) :
    WJob × List SDoc :=
  let p := job.project_id
  let canonical := workerCanonical canonicalParam url SourceType.YOUTUBE
  match workerFindDoc docs p url canonical with
  | some d =>
    (⟨job.id, p, job.workspace_id, JobStatus.COMPLETED, "DONE".data, 5,
      true, some (pyOrStr d.title (pyOrS canonical url)), none, none, none, none⟩, docs)
  | none =>
    if e2e_retry_ok then
      let store_url := pyOrS canonical url
      let stub : SDoc := ⟨fresh, p, job.workspace_id, store_url, some canonical,
        some ("E2E Retry Stub".data), "Stub content for retry.".data⟩
      (⟨job.id, p, job.workspace_id, JobStatus.COMPLETED, "DONE".data, 5,
        false, some ("E2E Retry Stub".data), none, none, some 1, none⟩, stub :: docs)
    else
      let page_title := pyOrS title ("YouTube video".data)
      if transcript = [] then
        (setJobFailed job ("TRANSCRIPT_DISABLED".data)
          ("Captions not available — upload audio file".data) (some page_title), docs)
      else
        let parts := transcript.map segLine
        let text_content := if parts = [] then title else joinSep ("\n\n".data) parts
        if pyStrip text_content = [] then
          (setJobFailed job ("EMPTY_CONTENT".data)
            ("No content could be extracted from this page.".data) none, docs)
        else
          let docs2 :=
            match workerFindDoc docs p url canonical with
            | some d =>
              docs.map (fun x => if x.id = d.id then
                (⟨d.id, d.project_id, d.workspace_id, d.url,
                  (if canonical = [] then d.canonical_url else some canonical),
                  some page_title, text_content⟩ : SDoc) else x)
            | none =>
              (⟨fresh, p, job.workspace_id, pyOrS canonical url, some canonical,
                some page_title, text_content⟩ : SDoc) :: docs
          let auto_flagged := (facts.filter (fun f =>
            initialReviewStatus (confidenceScore (String.mk f.confidence))
              = ReviewStatus.NEEDS_REVIEW)).length
          (⟨job.id, p, job.workspace_id, JobStatus.COMPLETED, "DONE".data, 5,
            false, some page_title, none, none, some facts.length, some auto_flagged⟩,
           docs2)

/-- **C7** (YouTube hard stop): a YOUTUBE ingestion job with no pre-existing
SourceDoc whose caption fetch returns zero transcript segments terminates
FAILED with error_code "TRANSCRIPT_DISABLED" and the audio-upload fallback
message, and the document table is returned unchanged — no SourceDoc is
created or modified. -/
theorem youtube_transcript_disabled_hard_stop (job : WJob) (url : PyStr)
    (canonicalParam : Option PyStr) (title : PyStr) (facts : List LlmFact)
    (docs : List SDoc) (fresh : Nat)
    (hdoc : workerFindDoc docs job.project_id url
      (workerCanonical canonicalParam url SourceType.YOUTUBE) = none) :
    (ingestYoutubeTask job url canonicalParam false title [] facts docs fresh).1.status
      = JobStatus.FAILED ∧
    (ingestYoutubeTask job url canonicalParam false title [] facts docs fresh).1.result_error_code
      = some ("TRANSCRIPT_DISABLED".data) ∧
    (ingestYoutubeTask job url canonicalParam false title [] facts docs fresh).1.result_error_message
      = some ("Captions not available — upload audio file".data) ∧
    (ingestYoutubeTask job url canonicalParam false title [] facts docs fresh).1.current_step
      = "FAILED".data ∧
    (ingestYoutubeTask job url canonicalParam false title [] facts docs fresh).2 = docs := by
  simp only [ingestYoutubeTask, hdoc]
  exact ⟨rfl, rfl, rfl, rfl, rfl⟩

def c7WUrl : PyStr := "https://www.youtube.com/watch?v=dQw4w9WgXcQ".data

def c7WJob : WJob :=
  ⟨3, 1, 1, JobStatus.PENDING, [], 0, false, none, none, none, none, none⟩

/-- Witness for C7: a concrete YOUTUBE job over an empty document table whose
caption fetch returned no segments. -/
theorem youtube_transcript_disabled_hard_stop_witness :
    workerFindDoc ([] : List SDoc) c7WJob.project_id c7WUrl
      (workerCanonical none c7WUrl SourceType.YOUTUBE) = none ∧
    ((ingestYoutubeTask c7WJob c7WUrl none false ("Talk".data) [] [] [] 9).1.status
      = JobStatus.FAILED ∧
     (ingestYoutubeTask c7WJob c7WUrl none false ("Talk".data) [] [] [] 9).1.result_error_code
      = some ("TRANSCRIPT_DISABLED".data) ∧
     (ingestYoutubeTask c7WJob c7WUrl none false ("Talk".data) [] [] [] 9).1.result_error_message
      = some ("Captions not available — upload audio file".data) ∧
     (ingestYoutubeTask c7WJob c7WUrl none false ("Talk".data) [] [] [] 9).1.current_step
      = "FAILED".data ∧
     (ingestYoutubeTask c7WJob c7WUrl none false ("Talk".data) [] [] [] 9).2 = []) :=
  ⟨by decide,
   youtube_transcript_disabled_hard_stop c7WJob c7WUrl none ("Talk".data) []
     ([] : List SDoc) 9 (by decide)⟩

/-- Witness for C1 at a concrete state holding the stored document. -/
theorem ingest_idempotent_enqueue_witness :
    findExistingDoc c1WState.docs 1 c1WUrl (canonicalOf c1WUrl) = some c1WDoc ∧
    (ingestUrl 1 1 c1WUrl c1WState).1.is_duplicate = true ∧
    (ingestUrl 1 1 c1WUrl (ingestUrl 1 1 c1WUrl c1WState).2).1.is_duplicate = true :=
  ⟨by decide,
   (ingest_idempotent_enqueue 1 1 c1WUrl c1WState c1WState c1WDoc (by decide)).1.1,
   (ingest_idempotent_enqueue 1 1 c1WUrl c1WState c1WState c1WDoc (by decide)).2.1⟩

end ArtifactOS
